import Mathlib

/-!
Verification development for the Star-Wrangler tool set.

The programs under study analyse and rewrite Python sources.  They call two
external facilities — the `pylint` linter (whose JSON diagnostics drive the
undefined/unused-name discovery) and the Python `ast` parser — and do pure
list/string processing on their results.  The embedding below keeps those
external facilities as explicit inputs (lists of diagnostic records, already
parsed statement lists, oracle functions) and translates the own
processing of the repository from the source files `universe.py`, `star_wrangler.py`,
`star_namer.py` and `from_to_import.py`.

Machine strings are modelled by Lean `String` (a packed `List Char`); the
handful of Python string operations used by the code (`re.sub` with a literal
or anchored pattern, `str.strip`, `str.rstrip`, `str.split`, `str.startswith`,
`in`) are defined below with Python semantics.
-/

set_option maxRecDepth 10000

namespace StarWrangler

/-- The single-quote character (spelled numerically). -/
def squote : Char := Char.ofNat 39

/-- The tab character. -/
def tabChar : Char := Char.ofNat 9

/-- Python `s.startswith(pre)`. -/
def strStarts (s pre : String) : Bool := pre.data.isPrefixOf s.data

/-- Python substring test `pat in s` on character lists. -/
def listContains (pat : List Char) : List Char → Bool
  | [] => pat.isEmpty
  | c :: rest => pat.isPrefixOf (c :: rest) || listContains pat rest

/-- Python substring test `pat in s` on strings. -/
def pyIn (pat s : String) : Bool := listContains pat.data s.data

/-- Auxiliary scanner for Python `str.split()` (split on whitespace runs,
dropping empty pieces); `acc` holds the current token reversed. -/
def splitWsAux (acc : List Char) : List Char → List String
  | [] => if acc.isEmpty then [] else [⟨acc.reverse⟩]
  | c :: rest =>
    if c.isWhitespace then
      if acc.isEmpty then splitWsAux [] rest else ⟨acc.reverse⟩ :: splitWsAux [] rest
    else splitWsAux (c :: acc) rest

/-- Python `s.split()`. -/
def pysplit (s : String) : List String := splitWsAux [] s.data

/-- `re.sub` with a literal pattern: replace each leftmost non-overlapping
occurrence of `pat` by `repl`, scanning left to right. -/
def replaceAll (pat repl : List Char) (s : List Char) : List Char :=
  match s with
  | [] => []
  | c :: rest =>
    if pat ≠ [] ∧ pat.isPrefixOf (c :: rest) = true then
      repl ++ replaceAll pat repl (rest.drop (pat.length - 1))
    else
      c :: replaceAll pat repl rest
termination_by s.length
decreasing_by
  · simp only [List.length_drop, List.length_cons]
    omega
  · simp only [List.length_cons]
    omega

/-- Python `s.strip(q)` for a single character `q`: remove every leading and
trailing occurrence of `q`. -/
def stripChar (q : Char) (s : List Char) : List Char :=
  ((s.dropWhile (fun c => c == q)).reverse.dropWhile (fun c => c == q)).reverse

/-- A pylint JSON diagnostic record (the fields the tools read). -/
structure Diag where
  mid : String
  msg : String
  line : Nat
  col : Nat
deriving DecidableEq, Repr

/-- `universe.get_undefined`: run the source through pylint and yield each
JSON item whose message-id is E0602, in output order.  The pylint run itself
is the external input `diags`. -/
def get_undefined : List Diag → List Diag
  | [] => []
  | d :: rest => if d.mid = "E0602" then d :: get_undefined rest else get_undefined rest

/-- The literal pattern removed by `universe.undefined` and
`star_wrangler.undefined` (`re.sub` deleting the text Undefined variable). -/
def undefPat : List Char := ("Undefined variable ").data

/-- The word extraction applied to an E0602 message: `re.sub` deleting every
occurrence of the pattern, then stripping single-quote characters. -/
def extractUndefined (m : String) : String :=
  ⟨stripChar squote (replaceAll undefPat [] m.data)⟩

/-- `star_wrangler.undefined`: yield the extracted word of each E0602 item,
in output order. -/
def undefinedWords : List Diag → List String
  | [] => []
  | d :: rest =>
    if d.mid = "E0602" then extractUndefined d.msg :: undefinedWords rest
    else undefinedWords rest

/-- `universe.undefined`: the same words, collected into a set (modelled as a
duplicate-free list keeping first occurrences). -/
def undefinedSet (diags : List Diag) : List String := (undefinedWords diags).dedup

/-- Deletion of a leading pattern, as claim C1 words it. -/
def delPat (pat s : List Char) : List Char :=
  if pat.isPrefixOf s then s.drop pat.length else s

/-- Stripping one surrounding pair of the character `q`, as claim C1 words it. -/
def stripSurround (q : Char) (s : List Char) : List Char :=
  if 2 ≤ s.length ∧ s.head? = some q ∧ s.getLast? = some q then (s.drop 1).dropLast else s

/-- The name obtained from an E0602 message the way claim C1 describes it:
delete the leading text `Undefined variable ` and strip the surrounding
single quotes. -/
def claimExtract (m : String) : List Char := stripSurround squote (delPat undefPat m.data)

/-- The shape pylint actually gives E0602 messages: the fixed text followed by
the offending name between single quotes, the name free of quotes and spaces. -/
def canonicalE0602 (d : Diag) : Prop :=
  ∃ w : List Char, (∀ c ∈ w, c ≠ squote ∧ c ≠ ' ') ∧
    d.msg.data = undefPat ++ squote :: (w ++ [squote])

theorem isPrefixOf_append_self (l r : List Char) : l.isPrefixOf (l ++ r) = true := by
  induction l with
  | nil => simp [List.isPrefixOf]
  | cons a as ih => simpa [List.isPrefixOf] using ih

theorem mem_of_isPrefixOf {pat s : List Char} (h : pat.isPrefixOf s = true) :
    ∀ c ∈ pat, c ∈ s := by
  intro c hc
  exact (List.isPrefixOf_iff_prefix.mp h).subset hc

theorem replaceAll_head_match (pat repl rest : List Char) (hp : pat ≠ []) :
    replaceAll pat repl (pat ++ rest) = repl ++ replaceAll pat repl rest := by
  cases pat with
  | nil => exact absurd rfl hp
  | cons p ps =>
    rw [replaceAll.eq_def]
    simp only [List.cons_append]
    rw [if_pos]
    · have hdrop : (ps ++ rest).drop ((p :: ps).length - 1) = rest := by
        simp only [List.length_cons, Nat.add_sub_cancel]
        exact List.drop_left ps rest
      rw [hdrop]
    · exact ⟨by simp, by simpa using isPrefixOf_append_self (p :: ps) rest⟩

theorem replaceAll_of_not_mem (pat repl : List Char) (c0 : Char) (hc : c0 ∈ pat) :
    ∀ s : List Char, c0 ∉ s → replaceAll pat repl s = s := by
  intro s
  induction s with
  | nil => intro _; rw [replaceAll.eq_def]
  | cons c rest ih =>
    intro hmem
    rw [replaceAll.eq_def]
    dsimp only
    rw [if_neg]
    · rw [ih (fun h => hmem (List.mem_cons_of_mem c h))]
    · rintro ⟨-, hpre⟩
      exact hmem (mem_of_isPrefixOf hpre c0 hc)

theorem dropWhile_beq_self (q : Char) (l : List Char) (h : ∀ c ∈ l, c ≠ q) :
    l.dropWhile (fun c => c == q) = l := by
  cases l with
  | nil => rfl
  | cons a as =>
    have ha : (a == q) = false := by simpa using h a (List.mem_cons_self a as)
    rw [List.dropWhile_cons, ha]
    simp

theorem stripChar_quoted (q : Char) (w : List Char) (hw : ∀ c ∈ w, c ≠ q) :
    stripChar q (q :: (w ++ [q])) = w := by
  unfold stripChar
  have step1 : (q :: (w ++ [q])).dropWhile (fun c => c == q)
      = (w ++ [q]).dropWhile (fun c => c == q) := by
    rw [List.dropWhile_cons]
    simp
  rw [step1]
  cases w with
  | nil => simp [List.dropWhile_cons]
  | cons a as =>
    have ha : (a == q) = false := by simpa using hw a (List.mem_cons_self a as)
    have step2 : ((a :: as) ++ [q]).dropWhile (fun c => c == q) = (a :: as) ++ [q] := by
      rw [List.cons_append, List.dropWhile_cons, ha]
      simp
    rw [step2]
    have step3 : ((a :: as) ++ [q]).reverse = q :: (a :: as).reverse := by simp
    rw [step3]
    have step4 : (q :: (a :: as).reverse).dropWhile (fun c => c == q)
        = (a :: as).reverse.dropWhile (fun c => c == q) := by
      rw [List.dropWhile_cons]
      simp
    rw [step4]
    have step5 : (a :: as).reverse.dropWhile (fun c => c == q) = (a :: as).reverse :=
      dropWhile_beq_self q _ (fun c hc => hw c (List.mem_reverse.mp hc))
    rw [step5, List.reverse_reverse]

theorem extractUndefined_canonical (q : Char) (w : List Char)
    (hw : ∀ c ∈ w, c ≠ squote ∧ c ≠ ' ') (m : String)
    (hm : m.data = undefPat ++ squote :: (w ++ [squote])) :
    extractUndefined m = ⟨w⟩ := by
  unfold extractUndefined
  rw [hm]
  rw [replaceAll_head_match undefPat [] (squote :: (w ++ [squote])) (by decide)]
  rw [List.nil_append]
  have hnosp : ' ' ∉ squote :: (w ++ [squote]) := by
    intro h
    rcases List.mem_cons.mp h with h1 | h2
    · exact absurd h1.symm (by decide)
    · rcases List.mem_append.mp h2 with h3 | h4
      · exact (hw ' ' h3).2 rfl
      · simp at h4
        exact absurd h4.symm (by decide)
  rw [replaceAll_of_not_mem undefPat [] ' ' (by decide) _ hnosp]
  rw [stripChar_quoted squote w (fun c hc => (hw c hc).1)]

theorem claimExtract_canonical (w : List Char)
    (hw : ∀ c ∈ w, c ≠ squote ∧ c ≠ ' ') (m : String)
    (hm : m.data = undefPat ++ squote :: (w ++ [squote])) :
    claimExtract m = w := by
  unfold claimExtract delPat
  rw [hm]
  rw [if_pos (isPrefixOf_append_self undefPat _)]
  rw [List.drop_left undefPat _]
  unfold stripSurround
  rw [if_pos]
  · rw [List.drop_one, List.tail_cons, List.dropLast_concat]
  · refine ⟨by simp, by simp, ?_⟩
    have : (squote :: (w ++ [squote])).getLast? = (w ++ [squote]).getLast? := by
      cases w <;> simp [List.getLast?_concat]
    rw [this, List.getLast?_concat]

theorem mem_undefinedWords (diags : List Diag) (s : String) :
    s ∈ undefinedWords diags ↔
      ∃ d, d ∈ diags ∧ d.mid = "E0602" ∧ s = extractUndefined d.msg := by
  induction diags with
  | nil => simp [undefinedWords]
  | cons d rest ih =>
    unfold undefinedWords
    by_cases hd : d.mid = "E0602"
    · rw [if_pos hd]
      constructor
      · intro h
        rcases List.mem_cons.mp h with h1 | h2
        · exact ⟨d, List.mem_cons_self d rest, hd, h1⟩
        · rcases ih.mp h2 with ⟨e, he, hmid, hs⟩
          exact ⟨e, List.mem_cons_of_mem d he, hmid, hs⟩
      · rintro ⟨e, he, hmid, hs⟩
        rcases List.mem_cons.mp he with h | he2
        · exact List.mem_cons.mpr (Or.inl (h ▸ hs))
        · exact List.mem_cons.mpr (Or.inr (ih.mpr ⟨e, he2, hmid, hs⟩))
    · rw [if_neg hd, ih]
      constructor
      · rintro ⟨e, he, hmid, hs⟩
        exact ⟨e, List.mem_cons_of_mem d he, hmid, hs⟩
      · rintro ⟨e, he, hmid, hs⟩
        rcases List.mem_cons.mp he with h | he2
        · subst h
          exact absurd hmid hd
        · exact ⟨e, he2, hmid, hs⟩

theorem get_undefined_eq_filter (diags : List Diag) :
    get_undefined diags = diags.filter (fun d => decide (d.mid = "E0602")) := by
  induction diags with
  | nil => rfl
  | cons d rest ih =>
    unfold get_undefined
    by_cases hd : d.mid = "E0602"
    · simp [hd, List.filter_cons, ih]
    · simp [hd, List.filter_cons, ih]

/-- C1: for every pylint run, `universe.get_undefined` yields exactly the
diagnostics whose message-id is E0602, in output order; and, the messages
having the canonical pylint E0602 shape, `universe.undefined` (and the word
stream of `star_wrangler.undefined`) is exactly the set of names obtained by
deleting the leading text `Undefined variable ` and stripping the surrounding
single quotes; other message-ids contribute nothing. -/
theorem c1_undefined_pipeline (diags : List Diag)
    (hcanon : ∀ d ∈ diags, d.mid = "E0602" → canonicalE0602 d) :
    get_undefined diags = diags.filter (fun d => decide (d.mid = "E0602"))
    ∧ (∀ s : String, s ∈ undefinedSet diags ↔
        ∃ d, d ∈ diags ∧ d.mid = "E0602" ∧ s.data = claimExtract d.msg)
    ∧ (∀ s : String, s ∈ undefinedWords diags ↔ s ∈ undefinedSet diags) := by
  refine ⟨get_undefined_eq_filter diags, ?_, ?_⟩
  · intro s
    rw [undefinedSet, List.mem_dedup, mem_undefinedWords]
    constructor
    · rintro ⟨d, hd, hmid, hs⟩
      rcases hcanon d hd hmid with ⟨w, hw, hm⟩
      refine ⟨d, hd, hmid, ?_⟩
      rw [hs, extractUndefined_canonical squote w hw d.msg hm,
        claimExtract_canonical w hw d.msg hm]
    · rintro ⟨d, hd, hmid, hs⟩
      rcases hcanon d hd hmid with ⟨w, hw, hm⟩
      refine ⟨d, hd, hmid, ?_⟩
      rw [claimExtract_canonical w hw d.msg hm] at hs
      rw [extractUndefined_canonical squote w hw d.msg hm]
      exact String.ext hs
  · intro s
    rw [undefinedSet, List.mem_dedup]

/-- Concrete pylint output used to check C1. -/
def c1diags : List Diag :=
  [⟨"E0602", ⟨undefPat ++ squote :: (("foo").data ++ [squote])⟩, 3, 4⟩,
   ⟨"W0614", "some other message", 1, 0⟩]

theorem c1_pipeline_check :
    (∀ d ∈ c1diags, d.mid = "E0602" → canonicalE0602 d)
    ∧ (get_undefined c1diags = c1diags.filter (fun d => decide (d.mid = "E0602"))
      ∧ (∀ s : String, s ∈ undefinedSet c1diags ↔
          ∃ d, d ∈ c1diags ∧ d.mid = "E0602" ∧ s.data = claimExtract d.msg)
      ∧ (∀ s : String, s ∈ undefinedWords c1diags ↔ s ∈ undefinedSet c1diags)) := by
  have hc : ∀ d ∈ c1diags, d.mid = "E0602" → canonicalE0602 d := by
    intro d hd hmid
    rcases List.mem_cons.mp hd with rfl | hd2
    · exact ⟨("foo").data, by decide, rfl⟩
    · rcases List.mem_cons.mp hd2 with rfl | hd3
      · exact absurd hmid (by decide)
      · simp at hd3
  exact ⟨hc, c1_undefined_pipeline c1diags hc⟩

/-! ## C2: `universe.scrape_wildcard` -/

/-- A member of a loaded module, as `scrape_wildcard` distinguishes them:
only its identity and whether it is a module object matter. -/
structure Member where
  tag : Nat
  isModule : Bool
deriving DecidableEq, Repr

/-- The anchored pattern `^Unused import ` removed first from a W0614 message. -/
def unusedPat : List Char := ("Unused import ").data

/-- The anchored pattern ` from wildcard import$` removed second. -/
def wildSuffixPat : List Char := (" from wildcard import").data

/-- `re.sub` with a `^`-anchored literal pattern (no trailing-newline subtlety:
pylint messages do not end in a newline). -/
def reSubStart (pat s : List Char) : List Char :=
  if pat.isPrefixOf s then s.drop pat.length else s

/-- `re.sub` with a `$`-anchored literal pattern. -/
def reSubEnd (pat s : List Char) : List Char :=
  if pat.isSuffixOf s then s.take (s.length - pat.length) else s

/-- The unused-name extraction `scrape_wildcard` applies to a W0614 message. -/
def extractUnused (m : String) : String :=
  ⟨reSubEnd wildSuffixPat (reSubStart unusedPat m.data)⟩

/-- The `unused` accumulation loop of `universe.scrape_wildcard`: one entry per
W0614 item, in output order. -/
def scrapeUnused : List Diag → List String
  | [] => []
  | d :: rest =>
    if d.mid = "W0614" then extractUnused d.msg :: scrapeUnused rest
    else scrapeUnused rest

/-- Python `dict` lookup on an association list. -/
def alookup {α : Type} : List (String × α) → String → Option α
  | [], _ => none
  | p :: rest, k => if p.1 = k then some p.2 else alookup rest k

/-- Result of `universe.scrape_wildcard`: the returned dict together with the
flag recording whether the no-unused-imports warning fired. -/
structure WildOut where
  warned : Bool
  result : List (String × Member)
deriving DecidableEq, Repr

/-- `universe.scrape_wildcard filename modvars`, with the pylint run on
`filename` supplied as `diags`: collect the W0614 unused names; if there are
none, warn and return the empty dict; otherwise iterate over
`set(modvars) - set(unused)` and keep the non-dunder, non-module members. -/
def scrape_wildcard (diags : List Diag) (modvars : List (String × Member)) : WildOut :=
  let unused := scrapeUnused diags
  if unused = [] then ⟨true, []⟩
  else
    let names := ((modvars.map Prod.fst).dedup).filter (fun n => decide (¬ n ∈ unused))
    ⟨false, names.filterMap (fun n =>
      if strStarts n "__" then none
      else
        match alookup modvars n with
        | some m => if m.isModule then none else some (n, m)
        | none => none)⟩

theorem alookup_mem {α : Type} {l : List (String × α)} {k : String} {v : α}
    (h : alookup l k = some v) : (k, v) ∈ l := by
  induction l with
  | nil => exact absurd h (by simp [alookup])
  | cons p rest ih =>
    unfold alookup at h
    by_cases hk : p.1 = k
    · rw [if_pos hk] at h
      have hv := Option.some.inj h
      have hp : p = (k, v) := by
        cases p
        simp only at hk hv
        simp [hk, hv]
      rw [← hp]
      exact List.mem_cons_self p rest
    · rw [if_neg hk] at h
      exact List.mem_cons_of_mem p (ih h)

theorem alookup_of_mem_nodup {α : Type} {l : List (String × α)} {k : String} {v : α}
    (hmem : (k, v) ∈ l) (hnodup : (l.map Prod.fst).Nodup) : alookup l k = some v := by
  induction l with
  | nil => exact absurd hmem (by simp)
  | cons p rest ih =>
    rw [List.map_cons, List.nodup_cons] at hnodup
    rcases List.mem_cons.mp hmem with h | h2
    · rw [← h]
      unfold alookup
      rw [if_pos rfl]
    · unfold alookup
      by_cases hk : p.1 = k
      · exfalso
        apply hnodup.1
        rw [hk]
        exact List.mem_map.mpr ⟨(k, v), h2, rfl⟩
      · rw [if_neg hk]
        exact ih h2 hnodup.2

theorem scrapeUnused_eq_filter_map (diags : List Diag) :
    scrapeUnused diags
      = (diags.filter (fun d => decide (d.mid = "W0614"))).map (fun d => extractUnused d.msg) := by
  induction diags with
  | nil => rfl
  | cons d rest ih =>
    unfold scrapeUnused
    by_cases hd : d.mid = "W0614"
    · simp [hd, List.filter_cons, ih]
    · simp [hd, List.filter_cons, ih]

theorem scrapeUnused_nil_iff (diags : List Diag) :
    scrapeUnused diags = [] ↔ ∀ d ∈ diags, d.mid ≠ "W0614" := by
  rw [scrapeUnused_eq_filter_map]
  simp only [List.map_eq_nil_iff, List.filter_eq_nil_iff]
  constructor
  · intro h d hd hm
    have := h d hd
    simp [hm] at this
  · intro h d hd
    simp [h d hd]

/-- C2: `scrape_wildcard` returns exactly the members of `modvars` whose name
is not among the pylint W0614 unused-wildcard names, excluding dunder names and
module-valued members, each mapped to its `modvars` value; and when pylint
reports no W0614 message at all it warns and returns the empty dict. -/
theorem c2_scrape_wildcard (diags : List Diag) (modvars : List (String × Member))
    (hnodup : (modvars.map Prod.fst).Nodup) :
    ((∀ d ∈ diags, d.mid ≠ "W0614") →
        scrape_wildcard diags modvars = ⟨true, []⟩)
    ∧ ((∃ d ∈ diags, d.mid = "W0614") →
        (scrape_wildcard diags modvars).warned = false
        ∧ ∀ n m, (n, m) ∈ (scrape_wildcard diags modvars).result ↔
            ((n, m) ∈ modvars ∧ ¬ n ∈ scrapeUnused diags
              ∧ strStarts n "__" = false ∧ m.isModule = false)) := by
  constructor
  · intro hnone
    unfold scrape_wildcard
    rw [if_pos ((scrapeUnused_nil_iff diags).mpr hnone)]
  · intro hsome
    have hne : scrapeUnused diags ≠ [] := by
      intro h
      rcases hsome with ⟨d, hd, hm⟩
      exact (scrapeUnused_nil_iff diags).mp h d hd hm
    constructor
    · unfold scrape_wildcard
      rw [if_neg hne]
    · intro n m
      unfold scrape_wildcard
      rw [if_neg hne]
      simp only
      rw [List.mem_filterMap]
      constructor
      · rintro ⟨a, ha, hfa⟩
        by_cases hdu : strStarts a "__"
        · rw [if_pos hdu] at hfa
          exact absurd hfa (by simp)
        · rw [if_neg hdu] at hfa
          rcases hlk : alookup modvars a with _ | ma
          · rw [hlk] at hfa
            exact absurd hfa (by simp)
          · rw [hlk] at hfa
            dsimp only at hfa
            by_cases hmod : ma.isModule
            · rw [if_pos hmod] at hfa
              exact absurd hfa (by simp)
            · rw [if_neg hmod] at hfa
              have heq : a = n ∧ ma = m := by
                have := Option.some.inj hfa
                exact ⟨congrArg Prod.fst this, congrArg Prod.snd this⟩
              rcases heq with ⟨rfl, rfl⟩
              have hmem := alookup_mem hlk
              have hnot : ¬ a ∈ scrapeUnused diags := by
                have := (List.mem_filter.mp ha).2
                simpa using this
              exact ⟨hmem, hnot, by simpa using hdu, by simpa using hmod⟩
      · rintro ⟨hmem, hnot, hdu, hmod⟩
        refine ⟨n, ?_, ?_⟩
        · rw [List.mem_filter]
          refine ⟨List.mem_dedup.mpr (List.mem_map.mpr ⟨(n, m), hmem, rfl⟩), by simpa using hnot⟩
        · rw [if_neg (by simp [hdu])]
          rw [alookup_of_mem_nodup hmem hnodup]
          dsimp only
          rw [if_neg (by simp [hmod])]

/-- Concrete pylint output and member dict used to check C2. -/
def c2diags : List Diag :=
  [⟨"W0614", "Unused import spam from wildcard import", 1, 0⟩,
   ⟨"C0114", "Missing module docstring", 1, 0⟩]

def c2modvars : List (String × Member) :=
  [("spam", ⟨0, false⟩), ("eggs", ⟨1, false⟩), ("os", ⟨2, true⟩), ("__doc__", ⟨3, false⟩)]

theorem c2_scrape_wildcard_check :
    (c2modvars.map Prod.fst).Nodup
    ∧ ((∃ d ∈ c2diags, d.mid = "W0614") →
        (scrape_wildcard c2diags c2modvars).warned = false
        ∧ ∀ n m, (n, m) ∈ (scrape_wildcard c2diags c2modvars).result ↔
            ((n, m) ∈ c2modvars ∧ ¬ n ∈ scrapeUnused c2diags
              ∧ strStarts n "__" = false ∧ m.isModule = false)) :=
  ⟨by decide, (c2_scrape_wildcard c2diags c2modvars (by decide)).2⟩

/-! ## C5: `scrape_imports` (identical in universe.py and star_wrangler.py)

The `ast.parse` call is external; its result is modelled as a list of
top-level statements.  The `module` field of an `ImportFrom` node is `None`
for a bare relative import, which the space-join rejects with a TypeError —
modelled as `Except.error`. -/

/-- A top-level Python statement, as far as `scrape_imports` looks at it:
`import` and `from-import` statements carry their alias list (name and
optional as-name) and 1-based line number; anything else is `other`, whose
nested body `ast.iter_child_nodes` never enters. -/
inductive PyStmt where
  | imp (lineno : Nat) (names : List (String × Option String))
  | impFrom (lineno : Nat) (module : Option String) (names : List (String × Option String))
  | other (body : List PyStmt)

/-- The Python space-join of a token list. -/
def joinSp : List String → String
  | [] => ""
  | [t] => t
  | t :: rest => t ++ " " ++ joinSp rest

/-- The token list `out` built for one alias: the alias name, plus the token
as and the asname when present. -/
def aliasTokens (a : String × Option String) : List String :=
  match a.2 with
  | some x => [a.1, "as", x]
  | none => [a.1]

/-- The pairs emitted for a plain import statement. -/
def emitImp (n : Nat) (names : List (String × Option String)) : List (Nat × String) :=
  names.map (fun a => (n - 1, joinSp ("import" :: aliasTokens a)))

/-- Collect a list of options, failing if any entry is `none`. -/
def optTraverse {α : Type} : List (Option α) → Option (List α)
  | [] => some []
  | none :: _ => none
  | some t :: rest => (optTraverse rest).map (fun l => t :: l)

/-- The pairs emitted for a from-import statement; `none` models the
TypeError raised by the space-join over a `None` module, i.e. when the
statement is a relative import. -/
def emitFrom (n : Nat) (mo : Option String) (names : List (String × Option String)) :
    Option (List (Nat × String)) :=
  optTraverse (names.map (fun a =>
    match mo with
    | some m => some (n - 1, joinSp (["from", m, "import"] ++ aliasTokens a))
    | none => none))

/-- `scrape_imports`: walk the top-level statements in order, expanding
each import statement into one pair per alias.  `Except.error` models
the TypeError on a relative import. -/
def scrape_imports_stmts : List PyStmt → Except Unit (List (Nat × String))
  | [] => .ok []
  | PyStmt.imp n names :: rest =>
      (scrape_imports_stmts rest).map (fun tl => emitImp n names ++ tl)
  | PyStmt.impFrom n mo names :: rest =>
      match emitFrom n mo names with
      | none => .error ()
      | some pairs => (scrape_imports_stmts rest).map (fun tl => pairs ++ tl)
  | PyStmt.other _ :: rest => scrape_imports_stmts rest

/-- The reconstructed text of one alias, in the four shapes C5 lists. -/
def specRender (isFrom : Bool) (m : String) (a : String × Option String) : String :=
  match isFrom, a.2 with
  | false, none => "import " ++ a.1
  | false, some x => "import " ++ a.1 ++ " as " ++ x
  | true, none => "from " ++ m ++ " import " ++ a.1
  | true, some x => "from " ++ m ++ " import " ++ a.1 ++ " as " ++ x

/-- The pairs C5 promises per top-level statement: nothing for a non-import
statement (so nested imports contribute nothing). -/
def specEmit : PyStmt → List (Nat × String)
  | PyStmt.imp n names => names.map (fun a => (n - 1, specRender false "" a))
  | PyStmt.impFrom n mo names => names.map (fun a => (n - 1, specRender true (mo.getD "") a))
  | PyStmt.other _ => []

theorem joinSp_import_alias (a : String × Option String) :
    joinSp ("import" :: aliasTokens a) = specRender false "" a := by
  rcases a with ⟨nm, _ | x⟩
  · show ("import" ++ " ") ++ nm = "import " ++ nm
    apply String.ext
    rw [String.data_append ("import" ++ " ") nm, String.data_append "import" " ",
      String.data_append "import " nm]
    rw [show ("import").data ++ (" ").data = ("import " : String).data from by decide]
  · show ("import" ++ " ") ++ ((nm ++ " ") ++ (("as" ++ " ") ++ x)) = "import " ++ nm ++ " as " ++ x
    apply String.ext
    simp only [String.data_append, List.append_assoc]
    simp

theorem joinSp_from_alias (m : String) (a : String × Option String) :
    joinSp (["from", m, "import"] ++ aliasTokens a) = specRender true m a := by
  rcases a with ⟨nm, _ | x⟩
  · show ("from" ++ " ") ++ ((m ++ " ") ++ (("import" ++ " ") ++ nm))
        = "from " ++ m ++ " import " ++ nm
    apply String.ext
    simp only [String.data_append, List.append_assoc]
    simp
  · show ("from" ++ " ") ++ ((m ++ " ") ++ (("import" ++ " ") ++ ((nm ++ " ") ++ (("as" ++ " ") ++ x))))
        = "from " ++ m ++ " import " ++ nm ++ " as " ++ x
    apply String.ext
    simp only [String.data_append, List.append_assoc]
    simp

theorem emitFrom_some (n : Nat) (m : String) (names : List (String × Option String)) :
    emitFrom n (some m) names
      = some (names.map (fun a => (n - 1, joinSp (["from", m, "import"] ++ aliasTokens a)))) := by
  unfold emitFrom
  induction names with
  | nil => rfl
  | cons a rest ih =>
    simp only [List.map_cons, optTraverse, ih]
    rfl

/-- C5 counterexample: on the syntactically valid source `from . import x`
(one top-level relative import), `scrape_imports` raises a TypeError instead
of yielding one pair for the alias `x`. -/
theorem c5_scrape_imports_counterexample :
    scrape_imports_stmts [PyStmt.impFrom 1 none [("x", none)]] = .error ()
    ∧ ¬ ∃ out, scrape_imports_stmts [PyStmt.impFrom 1 none [("x", none)]] = Except.ok out := by
  constructor
  · rfl
  · rintro ⟨out, h⟩
    rw [show scrape_imports_stmts [PyStmt.impFrom 1 none [("x", none)]]
        = Except.error () from rfl] at h
    exact absurd h (by simp)

/-- C5 (amended: top-level from-imports must carry an explicit module, i.e.
no bare relative imports): `scrape_imports` yields one pair per imported
alias of each top-level Import/ImportFrom statement, pairing the line
number of the statement minus one with the reconstructed text (one of the
four claimed shapes rendered by `specRender`), in top-to-bottom statement
order; import statements nested inside other statements are never
reported. -/
theorem c5_scrape_imports_amended (stmts : List PyStmt)
    (habs : ∀ n mo names, PyStmt.impFrom n mo names ∈ stmts → mo ≠ none) :
    scrape_imports_stmts stmts = .ok (stmts.flatMap specEmit) := by
  induction stmts with
  | nil => rfl
  | cons s rest ih =>
    have hrest : ∀ n mo names, PyStmt.impFrom n mo names ∈ rest → mo ≠ none := by
      intro n mo names hmem
      exact habs n mo names (List.mem_cons_of_mem s hmem)
    cases s with
    | imp n names =>
      unfold scrape_imports_stmts
      rw [ih hrest]
      show Except.ok (emitImp n names ++ rest.flatMap specEmit)
          = Except.ok ((PyStmt.imp n names :: rest).flatMap specEmit)
      rw [List.flatMap_cons]
      congr 2
      rw [show specEmit (PyStmt.imp n names)
          = names.map (fun a => (n - 1, specRender false "" a)) from rfl]
      unfold emitImp
      congr 1
      funext a
      rw [joinSp_import_alias a]
    | impFrom n mo names =>
      cases mo with
      | none => exact absurd rfl (habs n none names (List.mem_cons_self _ _))
      | some m =>
        unfold scrape_imports_stmts
        rw [emitFrom_some n m names, ih hrest]
        show Except.ok
            ((names.map (fun a => (n - 1, joinSp (["from", m, "import"] ++ aliasTokens a))))
              ++ rest.flatMap specEmit)
          = Except.ok ((PyStmt.impFrom n (some m) names :: rest).flatMap specEmit)
        rw [List.flatMap_cons]
        congr 2
        rw [show specEmit (PyStmt.impFrom n (some m) names)
            = names.map (fun a => (n - 1, specRender true m a)) from rfl]
        congr 1
        funext a
        rw [joinSp_from_alias m a]
    | other body =>
      unfold scrape_imports_stmts
      rw [ih hrest]
      rw [List.flatMap_cons]
      rw [show specEmit (PyStmt.other body) = [] from rfl]
      rw [List.nil_append]

/-- Concrete statement list used to check the amended C5. -/
def c5stmts : List PyStmt :=
  [PyStmt.imp 1 [("os", none), ("numpy", some "np")],
   PyStmt.other [PyStmt.imp 3 [("hidden", none)]],
   PyStmt.impFrom 4 (some "collections") [("OrderedDict", some "odict")]]

theorem c5_scrape_imports_check :
    (∀ n mo names, PyStmt.impFrom n mo names ∈ c5stmts → mo ≠ none)
    ∧ scrape_imports_stmts c5stmts = .ok (c5stmts.flatMap specEmit) := by
  have h : ∀ n mo names, PyStmt.impFrom n mo names ∈ c5stmts → mo ≠ none := by
    intro n mo names hmem
    rcases List.mem_cons.mp hmem with h1 | h2
    · exact absurd h1 (by intro hh; cases hh)
    · rcases List.mem_cons.mp h2 with h3 | h4
      · exact absurd h3 (by intro hh; cases hh)
      · rcases List.mem_cons.mp h4 with h5 | h6
        · cases h5
          intro hh
          cases hh
        · exact absurd h6 (by simp)
  exact ⟨h, c5_scrape_imports_amended c5stmts h⟩

/-! ## C7: `mod_name` via `str.rstrip` in `star_wrangler.main` -/

/-- Python `s.rstrip(chars)`: remove the maximal trailing run of characters
drawn from `chars`. -/
def pyRstrip (s : String) (chars : List Char) : String :=
  ⟨(s.data.reverse.dropWhile (fun c => chars.contains c)).reverse⟩

/-- The computation applied in `star_wrangler.main` to produce `mod_name`
(and `output_name`): `rstrip` of the basename with the character set given
by the extension string, the basename being supplied. -/
def mod_name_of (basename : String) : String := pyRstrip basename (".py").data

theorem length_dropWhile_le_self (p : Char → Bool) (l : List Char) :
    (l.dropWhile p).length ≤ l.length := by
  induction l with
  | nil => simp
  | cons a as ih =>
    rw [List.dropWhile_cons]
    by_cases hp : p a
    · rw [if_pos hp]
      exact Nat.le_succ_of_le ih
    · rw [if_neg hp]

theorem dropWhile_eq_self_iff_head (p : Char → Bool) (l : List Char) :
    l.dropWhile p = l ↔ (∀ c, l.head? = some c → p c = false) := by
  cases l with
  | nil => simp
  | cons a as =>
    rw [List.dropWhile_cons]
    by_cases hp : p a
    · rw [if_pos hp]
      constructor
      · intro h
        exfalso
        have hlen := congrArg List.length h
        have hle := length_dropWhile_le_self p as
        simp only [List.length_cons] at hlen
        omega
      · intro h
        have := h a rfl
        rw [hp] at this
        cases this
    · rw [if_neg hp]
      constructor
      · intro _ c hc
        have : a = c := by simpa using hc
        rw [← this]
        simpa using hp
      · intro _
        rfl

theorem dropWhile_append_of_all (p : Char → Bool) (l1 r : List Char)
    (h : ∀ c ∈ l1, p c = true) : (l1 ++ r).dropWhile p = r.dropWhile p := by
  induction l1 with
  | nil => simp
  | cons a as ih =>
    rw [List.cons_append, List.dropWhile_cons, if_pos (h a (List.mem_cons_self a as))]
    exact ih (fun c hc => h c (List.mem_cons_of_mem a hc))

/-- C7 counterexample: for a module file named `x..py` the stem (basename
without the `.py` extension) is `x.`, which does not end in `p` or `y`, yet
the rstrip yields `x` rather than the stem — refuting the claimed
exactly-when characterisation. -/
theorem c7_rstrip_counterexample :
    mod_name_of "x..py" ≠ "x."
    ∧ ("x." : String).data.getLast? ≠ some 'p'
    ∧ ("x." : String).data.getLast? ≠ some 'y'
    ∧ mod_name_of "x..py" = "x" := by decide

/-- C7 (amended: the stem must not end in `.`, `p` or `y`): the rstrip
removes the maximal trailing run of the characters `.`, `p`, `y`, so for a
basename of the shape `stem + ".py"` the computed `mod_name` equals the stem
exactly when the stem does not itself end in `.`, `p` or `y`; in particular
`happy.py` yields `ha`. -/
theorem c7_rstrip_amended (stem : String) :
    (mod_name_of ⟨stem.data ++ (".py").data⟩ = stem
      ↔ (∀ c, stem.data.getLast? = some c → ¬ c ∈ (".py").data))
    ∧ mod_name_of "happy.py" = "ha" := by
  constructor
  · unfold mod_name_of pyRstrip
    have hrev : (stem.data ++ (".py").data).reverse
        = ['y', 'p', '.'] ++ stem.data.reverse := by
      rw [List.reverse_append]
      rfl
    rw [show (⟨stem.data ++ (".py").data⟩ : String).data = stem.data ++ (".py").data from rfl]
    rw [hrev]
    rw [dropWhile_append_of_all _ ['y', 'p', '.'] _ (by decide)]
    constructor
    · intro h c hlast
      intro hcmem
      have hdata : (stem.data.reverse.dropWhile (fun c => (".py").data.contains c)).reverse
          = stem.data := congrArg String.data h
      have hd : stem.data.reverse.dropWhile (fun c => (".py").data.contains c)
          = stem.data.reverse := by
        have := congrArg List.reverse hdata
        simpa using this
      have hhead : stem.data.reverse.head? = some c := by
        rw [List.head?_reverse]
        exact hlast
      have hfalse := (dropWhile_eq_self_iff_head _ _).mp hd c hhead
      have htrue : (".py").data.contains c = true := List.elem_iff.mpr hcmem
      rw [hfalse] at htrue
      cases htrue
    · intro h
      have hd : stem.data.reverse.dropWhile (fun c => (".py").data.contains c)
          = stem.data.reverse := by
        rw [dropWhile_eq_self_iff_head]
        intro c hc
        rw [List.head?_reverse] at hc
        have hnot := h c hc
        cases hcc : (".py").data.contains c with
        | false => rfl
        | true => exact absurd (List.elem_iff.mp hcc) hnot
      rw [hd, List.reverse_reverse]
  · decide

/-! ## C8: `star_namer.check_pylint` and `universe.get_pylint` -/

/-- The external facts `check_pylint` consults: the configured path, whether
it exists on disk, and the parsed dotted version components of the
`pylint --version` output. -/
structure PylintEnv where
  path : String
  pathExists : Bool
  version : List Nat
deriving DecidableEq, Repr

/-- The two abnormal exits of the pylint check: `sys.exit(1)` on a missing
path, and `error(...)` on an old version. -/
inductive CheckErr where
  | exitOne
  | versionError
deriving DecidableEq, Repr

/-- Python list comparison `<` on integer lists (lexicographic, a strict
prefix being smaller). -/
def pyListLt : List Nat → List Nat → Bool
  | [], [] => false
  | [], _ :: _ => true
  | _ :: _, [] => false
  | a :: xs, b :: ys => if a < b then true else if b < a then false else pyListLt xs ys

/-- `star_namer.check_pylint`: exit 1 when the path does not exist, error when
`[major, minor] < [2, 4]`, else return the configured path. -/
def check_pylint (env : PylintEnv) : Except CheckErr String :=
  if env.pathExists = false then Except.error CheckErr.exitOne
  else if pyListLt (env.version.take 2) [2, 4] then Except.error CheckErr.versionError
  else Except.ok env.path

/-- `universe.get_pylint`: if `CACHED.pylint` is set, return it at once
(second component: the cache after the call); otherwise perform the same
checks as `check_pylint` and cache the path. -/
def get_pylint (cache : Option String) (env : PylintEnv) :
    Except CheckErr (String × Option String) :=
  match cache with
  | some p => Except.ok (p, some p)
  | none =>
    if env.pathExists = false then Except.error CheckErr.exitOne
    else if pyListLt (env.version.take 2) [2, 4] then Except.error CheckErr.versionError
    else Except.ok (env.path, some env.path)

theorem pyListLt_pair (a b c d : Nat) :
    pyListLt [a, b] [c, d] = true ↔ (a < c ∨ (a = c ∧ b < d)) := by
  show (if a < c then true else if c < a then false
      else if b < d then true else if d < b then false else pyListLt [] []) = true
    ↔ (a < c ∨ (a = c ∧ b < d))
  rw [show pyListLt [] [] = false from rfl]
  split_ifs with h1 h2 h3 h4
  · exact iff_of_true rfl (Or.inl h1)
  · exact iff_of_false (by simp) (by omega)
  · exact iff_of_true rfl (Or.inr ⟨by omega, h3⟩)
  · exact iff_of_false (by simp) (by omega)
  · exact iff_of_false (by simp) (by omega)

/-- C8: both pylint checks terminate with exit 1 when the configured path does
not exist, raise an error when the reported `[major, minor]` compares below
`[2, 4]`, and otherwise return the configured path; `get_pylint` additionally
caches the path, every subsequent call returning it without re-running the
checks. -/
theorem c8_pylint_checks (env : PylintEnv) (maj mnr : Nat)
    (hv : env.version = [maj, mnr]) :
    (env.pathExists = false →
      check_pylint env = Except.error CheckErr.exitOne
      ∧ get_pylint none env = Except.error CheckErr.exitOne)
    ∧ (env.pathExists = true →
        ((maj < 2 ∨ (maj = 2 ∧ mnr < 4)) →
          check_pylint env = Except.error CheckErr.versionError
          ∧ get_pylint none env = Except.error CheckErr.versionError)
        ∧ (¬ (maj < 2 ∨ (maj = 2 ∧ mnr < 4)) →
          check_pylint env = Except.ok env.path
          ∧ get_pylint none env = Except.ok (env.path, some env.path)))
    ∧ (∀ p : String, ∀ env2 : PylintEnv, get_pylint (some p) env2 = Except.ok (p, some p)) := by
  have htake : env.version.take 2 = [maj, mnr] := by
    rw [hv]
    rfl
  refine ⟨?_, ?_, ?_⟩
  · intro hex
    unfold check_pylint get_pylint
    rw [hex]
    exact ⟨rfl, rfl⟩
  · intro hex
    constructor
    · intro hlt
      have hb : pyListLt (env.version.take 2) [2, 4] = true := by
        rw [htake]
        exact (pyListLt_pair maj mnr 2 4).mpr hlt
      unfold check_pylint get_pylint
      rw [hex, hb]
      exact ⟨rfl, rfl⟩
    · intro hge
      have hb : pyListLt (env.version.take 2) [2, 4] = false := by
        rw [htake]
        by_cases h : pyListLt [maj, mnr] [2, 4] = true
        · exact absurd ((pyListLt_pair maj mnr 2 4).mp h) hge
        · simpa using h
      unfold check_pylint get_pylint
      rw [hex, hb]
      exact ⟨rfl, rfl⟩
  · intro p env2
    rfl

/-- Concrete environment used to check C8. -/
def c8env : PylintEnv := ⟨"/usr/bin/pylint", true, [2, 4]⟩

theorem c8_pylint_checks_witness :
    c8env.version = [2, 4]
    ∧ (c8env.pathExists = true →
        ((2 < 2 ∨ (2 = 2 ∧ 4 < 4)) →
          check_pylint c8env = Except.error CheckErr.versionError
          ∧ get_pylint none c8env = Except.error CheckErr.versionError)
        ∧ (¬ (2 < 2 ∨ (2 = 2 ∧ 4 < 4)) →
          check_pylint c8env = Except.ok c8env.path
          ∧ get_pylint none c8env = Except.ok (c8env.path, some c8env.path))) :=
  ⟨rfl, (c8_pylint_checks c8env 2 4 rfl).2.1⟩

/-! ## C10: `universe.load_mod` and `sys.path` -/

/-- The directory-separator character. -/
def slashChar : Char := '/'

/-- `os.path.basename`: the part after the last slash. -/
def pyBasename (s : String) : String :=
  ⟨(s.data.reverse.takeWhile (fun c => c != slashChar)).reverse⟩

/-- `os.path.dirname`: everything up to the last slash, with trailing slashes
stripped unless the result is all slashes. -/
def pyDirname (s : String) : String :=
  let head := (s.data.reverse.dropWhile (fun c => c != slashChar)).reverse
  if head.isEmpty then ""
  else if head.all (fun c => c == slashChar) then ⟨head⟩
  else ⟨(head.reverse.dropWhile (fun c => c == slashChar)).reverse⟩

/-- Index of the last dot of `cs`, when one exists. -/
def lastDotIdx (cs : List Char) : Option Nat :=
  let tailLen := (cs.reverse.takeWhile (fun c => c != '.')).length
  if tailLen = cs.length then none else some (cs.length - tailLen - 1)

/-- `os.path.splitext(b)[0]`: cut at the last dot, unless that dot belongs to
the leading run of dots. -/
def pySplitextStem (b : String) : String :=
  let cs := b.data
  let lead := (cs.takeWhile (fun c => c == '.')).length
  match lastDotIdx cs with
  | none => b
  | some i => if max lead 1 ≤ i then ⟨cs.take i⟩ else b

/-- Result of `universe.load_mod`: the name of the imported module when
loading succeeds (`none` models an import error propagating), together with
the value of `sys.path` observable afterwards. -/
structure LoadOut where
  result : Option String
  syspath : List String
deriving DecidableEq, Repr

/-- `universe.load_mod filename`: copy `sys.path`, prepend the directory of
the file, do the import under the extensionless basename (the import itself
being the external predicate `importOk`, consulted with the name and the
modified path), then restore the saved copy on success. -/
def load_mod (importOk : String → List String → Bool)
    (syspath : List String) (filename : String) : LoadOut :=
  let backup := syspath
  let path1 := pyDirname filename :: syspath
  let nm := pySplitextStem (pyBasename filename)
  if importOk nm path1 then ⟨some nm, backup⟩ else ⟨none, path1⟩

/-- C10: whenever `load_mod` returns successfully, the module was loaded
under the extensionless basename of the file, the import saw `sys.path`
with the directory of the file prepended, and the `sys.path` observable
after the call equals its value before the call. -/
theorem c10_load_mod_frame (importOk : String → List String → Bool)
    (syspath : List String) (filename : String) (nm : String)
    (h : (load_mod importOk syspath filename).result = some nm) :
    (load_mod importOk syspath filename).syspath = syspath
    ∧ nm = pySplitextStem (pyBasename filename)
    ∧ importOk nm (pyDirname filename :: syspath) = true := by
  by_cases hok : importOk (pySplitextStem (pyBasename filename))
      (pyDirname filename :: syspath) = true
  · have hres : load_mod importOk syspath filename
        = ⟨some (pySplitextStem (pyBasename filename)), syspath⟩ := by
      unfold load_mod
      rw [if_pos hok]
    rw [hres] at h ⊢
    have hnm : nm = pySplitextStem (pyBasename filename) := by
      have := Option.some.inj h
      exact this.symm
    exact ⟨rfl, hnm, hnm ▸ hok⟩
  · exfalso
    have hres : load_mod importOk syspath filename
        = ⟨none, pyDirname filename :: syspath⟩ := by
      unfold load_mod
      rw [if_neg hok]
    rw [hres] at h
    exact absurd h (by simp)

theorem c10_load_mod_frame_witness :
    ((load_mod (fun _ _ => true) ["/lib"] "/home/u/mymod.py").result = some "mymod")
    ∧ ((load_mod (fun _ _ => true) ["/lib"] "/home/u/mymod.py").syspath = ["/lib"]
      ∧ "mymod" = pySplitextStem (pyBasename "/home/u/mymod.py")
      ∧ (fun (_ : String) (_ : List String) => true) "mymod" (pyDirname "/home/u/mymod.py" :: ["/lib"]) = true) :=
  ⟨by decide, c10_load_mod_frame (fun _ _ => true) ["/lib"] "/home/u/mymod.py" "mymod" (by decide)⟩

/-! ## C6: `star_namer.PYLINT` is bound only under the `__main__` guard -/

/-- The Python exception of interest here. -/
inductive PyExc where
  | nameError
deriving DecidableEq, Repr

/-- The module-global `PYLINT` of `star_namer`: it is assigned only inside
the main-guard block, so it is unbound whenever the module is merely
loaded rather than run as a script. -/
def star_namer_PYLINT (isMain : Bool) (checked : String) : Option String :=
  if isMain then some checked else none

/-- The marker `star_namer.scrape_wildcard` looks for in a pylint output line. -/
def snErrPat : List Char := ("W0614: Unused import ").data

/-- Text after the first occurrence of `pat` (the `[1]` component of Python
`line.split(err)` for a line containing `err` once). -/
def afterFirst (pat : List Char) : List Char → Option (List Char)
  | [] => none
  | c :: rest =>
    if pat.isPrefixOf (c :: rest) then some (rest.drop (pat.length - 1))
    else afterFirst pat rest

/-- The unused-name extraction of `star_namer.scrape_wildcard` on one output
line: `line.split(err)[1].split()[0]`; `none` models the IndexError on a line
that ends right after the marker. -/
def snExtract (line : String) : Option String :=
  (afterFirst snErrPat line.data).bind (fun tl => (splitWsAux [] tl).head?)

/-- `star_namer.scrape_wildcard filename modvars`: the module-global `PYLINT`
is read unconditionally while building the lint command, so an unbound
`PYLINT` raises NameError before anything else happens; with it bound, the
unused names are collected from the output lines of the run (`runLines`
applied to the path and filename being the external `quickrun`) and
`modvars` is filtered exactly as in `universe.scrape_wildcard`. -/
def sn_scrape_wildcard (pylintGlobal : Option String)
    (runLines : String → String → List String)
    (filename : String) (modvars : List (String × Member)) :
    Except PyExc (List (String × Member)) :=
  match pylintGlobal with
  | none => Except.error PyExc.nameError
  | some p =>
    let unused := (runLines p filename).foldl (fun acc line =>
      if pyIn ⟨snErrPat⟩ line then acc ++ (snExtract line).toList else acc) []
    let names := ((modvars.map Prod.fst).dedup).filter (fun n => decide (¬ n ∈ unused))
    Except.ok (names.filterMap (fun n =>
      if strStarts n "__" then none
      else
        match alookup modvars n with
        | some m => if m.isModule then none else some (n, m)
        | none => none))

/-- The generator selection at the top of `star_wrangler.get_code_words`:
with a star among the common imports it iterates the keys of
`star_namer.scrape_wildcard` on the filename and members. -/
def get_code_words_gen (pylintGlobal : Option String)
    (runLines : String → String → List String)
    (filename : String) (members : List (String × Member))
    (common_imports : List String) : Except PyExc (List String) :=
  if common_imports.contains "*" = true then
    (sn_scrape_wildcard pylintGlobal runLines filename members).map (fun l => l.map Prod.fst)
  else Except.ok common_imports

/-- C6: with `star_namer` imported as a module (not `__main__`), its global
`PYLINT` is unbound, every call to `star_namer.scrape_wildcard` raises
NameError (the global is evaluated unconditionally while building the lint
command), and in particular `star_wrangler.get_code_words` hits that NameError
whenever a wildcard import is present. -/
theorem c6_pylint_unbound (runLines : String → String → List String)
    (filename : String) (modvars : List (String × Member)) (checked : String) :
    star_namer_PYLINT false checked = none
    ∧ sn_scrape_wildcard (star_namer_PYLINT false checked) runLines filename modvars
        = Except.error PyExc.nameError
    ∧ (∀ members common_imports, common_imports.contains "*" = true →
        get_code_words_gen (star_namer_PYLINT false checked) runLines filename
            members common_imports
          = Except.error PyExc.nameError) := by
  refine ⟨rfl, rfl, ?_⟩
  intro members ci hstar
  unfold get_code_words_gen
  rw [if_pos hstar]
  rfl

theorem c6_pylint_unbound_witness :
    ((["*", "spam"] : List String).contains "*" = true)
    ∧ get_code_words_gen (star_namer_PYLINT false "/usr/bin/pylint")
        (fun _ _ => []) "script.py" [] ["*", "spam"]
      = Except.error PyExc.nameError :=
  ⟨by decide,
    (c6_pylint_unbound (fun _ _ => []) "script.py" [] "/usr/bin/pylint").2.2
      [] ["*", "spam"] (by decide)⟩

/-! ## C9: `universe.get_line` and `GetVars` -/

/-- A parsed Python AST, as far as `GetVars` looks at it: `Name` nodes carry
their identifier, whether their context is `Store`, and their 1-based line
number; all other nodes only contribute their child sequence (encoded by
`seqNil`/`seqCons`), traversed left to right by `generic_visit`. -/
inductive PyAst where
  | nameNode (id : String) (isStore : Bool) (lineno : Nat)
  | seqNil
  | seqCons (hd tl : PyAst)
deriving DecidableEq, Repr

/-- `GetVars().search(tree, expr)`: the line numbers of Store-context `Name`
nodes whose id equals `expr`, in visit order. -/
def getVarsSearch (expr : String) : PyAst → List Nat
  | PyAst.nameNode id isStore lineno =>
    if isStore = true ∧ id = expr then [lineno] else []
  | PyAst.seqNil => []
  | PyAst.seqCons hd tl => getVarsSearch expr hd ++ getVarsSearch expr tl

/-- Python list indexing (negative indices wrap from the end; `none` models
IndexError). -/
def pyIndexStr (lines : List String) (i : Int) : Option String :=
  let j : Int := if i < 0 then (lines.length : Int) + i else i
  if 0 ≤ j then lines.get? j.toNat else none

/-- The test of `get_line`: the line is non-empty and starts with neither a
space nor a tab. -/
def topLevelLine (line : String) : Bool :=
  decide (line ≠ "") && !(strStarts line " " || strStarts line ⟨[tabChar]⟩)

/-- The scanning loop of `universe.get_line` over the found line numbers:
`code[num - 1]` raises IndexError (modelled `Except.error`) when out of
range; the first non-empty line not starting with a space or tab is
returned; exhaustion returns `None`. -/
def get_line_loop (lines : List String) : List Nat → Except Unit (Option String)
  | [] => Except.ok none
  | n :: rest =>
    match pyIndexStr lines ((n : Int) - 1) with
    | none => Except.error ()
    | some line =>
      if topLevelLine line = true then Except.ok (some line)
      else get_line_loop lines rest

/-- `universe.get_line module expr`, the source lines and parsed tree of the
module being supplied by the external parser. -/
def get_line (lines : List String) (tree : PyAst) (expr : String) :
    Except Unit (Option String) :=
  get_line_loop lines (getVarsSearch expr tree)

/-- What C9 describes: the first line, among those at the `GetVars` hits in
visit order, that is non-empty and does not start with a space or tab. -/
def get_line_spec (lines : List String) (tree : PyAst) (expr : String) : Option String :=
  ((getVarsSearch expr tree).filterMap
    (fun n : Nat => pyIndexStr lines ((n : Int) - 1))).find? topLevelLine

theorem pyIndexStr_valid (lines : List String) (n : Nat)
    (h1 : 1 ≤ n) (h2 : n ≤ lines.length) :
    ∃ line, pyIndexStr lines ((n : Int) - 1) = some line := by
  unfold pyIndexStr
  have hnonneg : ¬ ((n : Int) - 1 < 0) := by omega
  rw [if_neg hnonneg, if_pos (by omega)]
  have hidx : ((n : Int) - 1).toNat = n - 1 := by omega
  rw [hidx]
  cases hget : lines.get? (n - 1) with
  | none =>
    exfalso
    have := List.get?_eq_none.mp hget
    omega
  | some line => exact ⟨line, rfl⟩

theorem get_line_loop_spec (lines : List String) (nums : List Nat)
    (hvalid : ∀ n ∈ nums, 1 ≤ n ∧ n ≤ lines.length) :
    get_line_loop lines nums
      = Except.ok
        ((nums.filterMap (fun n : Nat => pyIndexStr lines ((n : Int) - 1))).find? topLevelLine) := by
  induction nums with
  | nil => rfl
  | cons n rest ih =>
    have hn := hvalid n (List.mem_cons_self n rest)
    rcases pyIndexStr_valid lines n hn.1 hn.2 with ⟨line, hline⟩
    unfold get_line_loop
    rw [hline]
    dsimp only
    rw [List.filterMap_cons, hline]
    by_cases htop : topLevelLine line = true
    · rw [if_pos htop, List.find?_cons_of_pos _ htop]
    · rw [if_neg htop, List.find?_cons_of_neg _ (by simpa using htop)]
      exact ih (fun k hk => hvalid k (List.mem_cons_of_mem n hk))

/-- C9: when every `GetVars` hit is a line number of the module source (as
the parser guarantees), `get_line` scans the hits in visit order and returns
the first corresponding source line that is non-empty and does not start with
a space or tab, or `None` when no hit yields such a line. -/
theorem c9_get_line (lines : List String) (tree : PyAst) (expr : String)
    (hvalid : ∀ n ∈ getVarsSearch expr tree, 1 ≤ n ∧ n ≤ lines.length) :
    get_line lines tree expr = Except.ok (get_line_spec lines tree expr) :=
  get_line_loop_spec lines (getVarsSearch expr tree) hvalid

/-- Concrete module source and parsed tree used to check C9. -/
def c9lines : List String := ["CONST = 1", "", "def f():", "    CONST = 2"]

def c9tree : PyAst :=
  PyAst.seqCons (PyAst.nameNode "CONST" true 1)
    (PyAst.seqCons (PyAst.nameNode "f" true 3)
      (PyAst.seqCons (PyAst.nameNode "CONST" true 4) PyAst.seqNil))

theorem c9_get_line_check :
    (∀ n ∈ getVarsSearch "CONST" c9tree, 1 ≤ n ∧ n ≤ c9lines.length)
    ∧ get_line c9lines c9tree "CONST" = Except.ok (get_line_spec c9lines c9tree "CONST") :=
  ⟨by decide, c9_get_line c9lines c9tree "CONST" (by decide)⟩

/-! ## C3: `from_to_import.convert`

`universe.scrape_imports` and `universe.get_undefined` are consumed through
oracle functions on the source text (the former is the parser composed with
the renderer verified under C5; the latter is pylint).  The text is modelled
as newline-separated lines without a trailing newline, the shape `convert`
reads and writes. -/

/-- The newline character. -/
def nlChar : Char := Char.ofNat 10

/-- Scanner for splitting at newlines; `acc` holds the current line reversed. -/
def splitLinesAux (acc : List Char) : List Char → List String
  | [] => [⟨acc.reverse⟩]
  | c :: rest =>
    if c == nlChar then ⟨acc.reverse⟩ :: splitLinesAux [] rest
    else splitLinesAux (c :: acc) rest

/-- Python `str.splitlines` on newline-separated text. -/
def splitLines (s : String) : List String := splitLinesAux [] s.data

/-- The Python newline-join. -/
def joinLines : List String → String
  | [] => ""
  | [l] => l
  | l :: rest => l ++ "\n" ++ joinLines rest

/-- Modelled from the spec: `sd.common.str_insert` (the `sd.common` helper
module is not part of this repository) inserts text into a string at a
character position. -/
def str_insert (s : String) (pos : Nat) (ins : String) : String :=
  ⟨s.data.take pos ++ ins.data ++ s.data.drop pos⟩

/-- Decreasing lexicographic comparison used to order the `[line, column]`
replacement pairs. -/
def pairLe (a b : Nat × Nat) : Bool :=
  decide (a.1 < b.1 ∨ (a.1 = b.1 ∧ a.2 ≤ b.2))

/-- Insertion step of the descending pair sort. -/
def insPairDesc (x : Nat × Nat) : List (Nat × Nat) → List (Nat × Nat)
  | [] => [x]
  | y :: ys => if pairLe y x then x :: y :: ys else y :: insPairDesc x ys

/-- Modelled from the spec: `sd.common.sort_array` with `reverse=True` (not in
this repository) puts the `[line, column]` pairs in decreasing lexicographic
order. -/
def sortPairsDesc (l : List (Nat × Nat)) : List (Nat × Nat) := l.foldr insPairDesc []

/-- Insertion step of the descending line-number sort
(`sorted(list(nums), reverse=True)`). -/
def insNatDesc (x : Nat) : List Nat → List Nat
  | [] => [x]
  | y :: ys => if y ≤ x then x :: y :: ys else y :: insNatDesc x ys

/-- `sorted(list(nums), reverse=True)`. -/
def sortNatDesc (l : List Nat) : List Nat := l.foldr insNatDesc []

/-- Python `list.insert(i, x)` (insert before position `i`, clamped). -/
def pyInsert (l : List String) (i : Nat) (x : String) : List String :=
  l.take i ++ x :: l.drop i

/-- `min(nums)` for a nonempty collection. -/
def minNat : List Nat → Nat
  | [] => 0
  | x :: xs => xs.foldl Nat.min x

/-- `line.split()[-1]`, the last whitespace-separated token. -/
def lastTok (s : String) : String := (pysplit s).getLastD ""

/-- Keep the lines whose 0-based index (starting at `i`) is not in `nums`:
the claim-side formalisation of "every such line removed". -/
def keepIdx (nums : List Nat) : Nat → List String → List String
  | _, [] => []
  | i, x :: xs =>
    if i ∈ nums then keepIdx nums (i + 1) xs else x :: keepIdx nums (i + 1) xs

/-- The from-import lines of the scraped pairs (reconstructed text starting
with the concatenation of the from-prefix and the module name). -/
def matchingOf (scraped : List (Nat × String)) (modname : String) : List (Nat × String) :=
  scraped.filter (fun p => strStarts p.2 ("from " ++ modname))

/-- The `found_modname_import` flag: some other scraped import line mentions
`modname` as a substring. -/
def foundImportOf (scraped : List (Nat × String)) (modname : String) : Bool :=
  scraped.any (fun p => !(strStarts p.2 ("from " ++ modname)) && pyIn modname p.2)

/-- The tail of `convert` shared by the code and the claim reading: compute
the newly undefined items of the edited text (those not equal to any item
of the original run), return `None` when there are none, and otherwise apply
the `str_insert` of `modname + '.'` at each `[line-1, column]` in decreasing
lexicographic order. -/
def convTail (lint : String → List Diag) (oldUndef : List Diag) (modname : String)
    (lines2 : List String) : Option String :=
  let fresh := (get_undefined (lint (joinLines lines2))).filter
    (fun d => decide (¬ d ∈ oldUndef))
  let pairs := fresh.map (fun d => (d.line - 1, d.col))
  if pairs.isEmpty then none
  else
    some (joinLines ((sortPairsDesc pairs).foldl
      (fun ls q => ls.set q.1 (str_insert (ls.getD q.1 "") q.2 (modname ++ "."))) lines2))

/-- `from_to_import.convert source modname`, translated from the source: scan
the scraped import pairs for from-lines of `modname` (collecting their line
numbers and last tokens) and for other lines mentioning `modname`; return
`None` with no match; pop the matched line numbers in decreasing order; put
the import line of `modname` at the smallest matched number unless another
scraped line mentioned `modname`; then hand over to the replacement tail. -/
def convert (scrape : String → List (Nat × String)) (lint : String → List Diag)
    (source modname : String) : Option String :=
  let matching := matchingOf (scrape source) modname
  let nums := (matching.map Prod.fst).dedup
  let words := (matching.map (fun p => lastTok p.2)).dedup
  if words.isEmpty then none
  else
    let lines1 := (sortNatDesc nums).foldl (fun ls n => ls.eraseIdx n) (splitLines source)
    let lines2 := if foundImportOf (scrape source) modname then lines1
      else pyInsert lines1 (minNat nums) ("import " ++ modname)
    convTail lint (get_undefined (lint source)) modname lines2

/-- `convert` as C3 words it: `None` when no top-level import line starts
with the from-prefix of `modname`; otherwise the source with every such line
removed (index-based), the import line of `modname` put at the smallest
removed line number unless some other top-level import line already
mentioned `modname`, and the replacement tail applied (which returns `None`
when no new undefined name appeared). -/
def convertSpec (scrape : String → List (Nat × String)) (lint : String → List Diag)
    (source modname : String) : Option String :=
  let matching := matchingOf (scrape source) modname
  if matching.isEmpty then none
  else
    let nums := (matching.map Prod.fst).dedup
    let removed := keepIdx nums 0 (splitLines source)
    let lines2 := if foundImportOf (scrape source) modname then removed
      else pyInsert removed (minNat nums) ("import " ++ modname)
    convTail lint (get_undefined (lint source)) modname lines2

theorem insNatDesc_perm (x : Nat) (l : List Nat) : List.Perm (insNatDesc x l) (x :: l) := by
  induction l with
  | nil => exact List.Perm.refl _
  | cons y ys ih =>
    unfold insNatDesc
    by_cases h : y ≤ x
    · rw [if_pos h]
    · rw [if_neg h]
      exact (List.Perm.cons y ih).trans (List.Perm.swap x y ys)

theorem sortNatDesc_perm (l : List Nat) : List.Perm (sortNatDesc l) l := by
  induction l with
  | nil => exact List.Perm.refl _
  | cons a rest ih =>
    show List.Perm (insNatDesc a (rest.foldr insNatDesc [])) (a :: rest)
    exact (insNatDesc_perm _ _).trans (List.Perm.cons a ih)

theorem mem_insNatDesc (a x : Nat) (l : List Nat) :
    a ∈ insNatDesc x l ↔ a = x ∨ a ∈ l :=
  ((insNatDesc_perm x l).mem_iff).trans (List.mem_cons)

theorem pairwise_insNatDesc (x : Nat) (l : List Nat)
    (h : l.Pairwise (fun a b => b ≤ a)) :
    (insNatDesc x l).Pairwise (fun a b => b ≤ a) := by
  induction l with
  | nil => simp [insNatDesc]
  | cons y ys ih =>
    have hpw := List.pairwise_cons.mp h
    unfold insNatDesc
    by_cases hyx : y ≤ x
    · rw [if_pos hyx]
      rw [List.pairwise_cons]
      constructor
      · intro b hb
        rcases List.mem_cons.mp hb with hb1 | hb2
        · omega
        · have := hpw.1 b hb2
          omega
      · exact h
    · rw [if_neg hyx]
      rw [List.pairwise_cons]
      constructor
      · intro b hb
        rcases (mem_insNatDesc b x ys).mp hb with hb1 | hb2
        · omega
        · exact hpw.1 b hb2
      · exact ih hpw.2

theorem sortNatDesc_pairwise (l : List Nat) :
    (sortNatDesc l).Pairwise (fun a b => b ≤ a) := by
  induction l with
  | nil => exact List.Pairwise.nil
  | cons a rest ih => exact pairwise_insNatDesc a _ ih

theorem keepIdx_none (nums : List Nat) :
    ∀ (l : List String) (i : Nat), (∀ m ∈ nums, m < i) → keepIdx nums i l = l := by
  intro l
  induction l with
  | nil => intro i _; rfl
  | cons x xs ih =>
    intro i h
    unfold keepIdx
    rw [if_neg (fun hmem => Nat.lt_irrefl i (h i hmem))]
    rw [ih (i + 1) (fun m hm => Nat.lt_succ_of_lt (h m hm))]

theorem keepIdx_congr (A B : List Nat) (h : ∀ i, i ∈ A ↔ i ∈ B) :
    ∀ (l : List String) (j : Nat), keepIdx A j l = keepIdx B j l := by
  intro l
  induction l with
  | nil => intro j; rfl
  | cons x xs ih =>
    intro j
    unfold keepIdx
    by_cases hj : j ∈ A
    · rw [if_pos hj, if_pos ((h j).mp hj), ih]
    · rw [if_neg hj, if_neg (fun hb => hj ((h j).mpr hb)), ih]

theorem keepIdx_eraseIdx (n : Nat) (rest : List Nat) (hrest : ∀ m ∈ rest, m < n) :
    ∀ (l : List String) (i : Nat), i ≤ n → n - i < l.length →
      keepIdx rest i (l.eraseIdx (n - i)) = keepIdx (n :: rest) i l := by
  intro l
  induction l with
  | nil =>
    intro i _ hlen
    simp at hlen
  | cons x xs ih =>
    intro i hle hlen
    by_cases hin : i = n
    · have h0 : n - i = 0 := by omega
      rw [h0]
      rw [show (x :: xs).eraseIdx 0 = xs from rfl]
      rw [keepIdx_none rest xs i (fun m hm => by have := hrest m hm; omega)]
      rw [show keepIdx (n :: rest) i (x :: xs)
          = if i ∈ n :: rest then keepIdx (n :: rest) (i + 1) xs
            else x :: keepIdx (n :: rest) (i + 1) xs from rfl]
      rw [if_pos (by rw [hin]; exact List.mem_cons_self n rest)]
      rw [keepIdx_none (n :: rest) xs (i + 1) ?hall]
      case hall =>
        intro m hm
        rcases List.mem_cons.mp hm with hm1 | hm2
        · omega
        · have := hrest m hm2
          omega
    · have hlt : i < n := by omega
      have h1 : n - i = (n - (i + 1)) + 1 := by omega
      rw [h1]
      rw [show (x :: xs).eraseIdx ((n - (i + 1)) + 1) = x :: xs.eraseIdx (n - (i + 1)) from rfl]
      have hmem_iff : (i ∈ rest) ↔ (i ∈ n :: rest) := by
        constructor
        · exact fun hh => List.mem_cons_of_mem n hh
        · intro hh
          rcases List.mem_cons.mp hh with hh1 | hh2
          · exact absurd hh1 hin
          · exact hh2
      have hlen2 : n - (i + 1) < xs.length := by
        simp only [List.length_cons] at hlen
        omega
      rw [show keepIdx rest i (x :: xs.eraseIdx (n - (i + 1)))
          = if i ∈ rest then keepIdx rest (i + 1) (xs.eraseIdx (n - (i + 1)))
            else x :: keepIdx rest (i + 1) (xs.eraseIdx (n - (i + 1))) from rfl]
      rw [show keepIdx (n :: rest) i (x :: xs)
          = if i ∈ n :: rest then keepIdx (n :: rest) (i + 1) xs
            else x :: keepIdx (n :: rest) (i + 1) xs from rfl]
      by_cases hir : i ∈ rest
      · rw [if_pos hir, if_pos (hmem_iff.mp hir)]
        exact ih (i + 1) (by omega) hlen2
      · rw [if_neg hir, if_neg (fun hx => hir (hmem_iff.mpr hx))]
        rw [ih (i + 1) (by omega) hlen2]

theorem foldl_eraseIdx_sorted (D : List Nat) :
    ∀ (l : List String), D.Pairwise (fun a b => b ≤ a) → D.Nodup →
      (∀ n ∈ D, n < l.length) →
      D.foldl (fun ls n => ls.eraseIdx n) l = keepIdx D 0 l := by
  induction D with
  | nil =>
    intro l _ _ _
    rw [List.foldl_nil, keepIdx_none [] l 0 (by simp)]
  | cons n rest ih =>
    intro l hsort hnodup hvalid
    rw [List.foldl_cons]
    have hpw := List.pairwise_cons.mp hsort
    have hnd := List.nodup_cons.mp hnodup
    have hrest_lt : ∀ m ∈ rest, m < n := by
      intro m hm
      have hle := hpw.1 m hm
      have hne : m ≠ n := fun he => hnd.1 (he ▸ hm)
      omega
    have hnlen : n < l.length := hvalid n (List.mem_cons_self n rest)
    have hvalid2 : ∀ m ∈ rest, m < (l.eraseIdx n).length := by
      intro m hm
      have hml := hrest_lt m hm
      rw [List.length_eraseIdx l n, if_pos hnlen]
      omega
    rw [ih (l.eraseIdx n) hpw.2 hnd.2 hvalid2]
    have hmain := keepIdx_eraseIdx n rest hrest_lt l 0 (by omega) (by
      rw [Nat.sub_zero]
      exact hnlen)
    rw [Nat.sub_zero] at hmain
    exact hmain

theorem eraseIdx_desc_eq_keepIdx (nums : List Nat) (l : List String)
    (hnodup : nums.Nodup) (hvalid : ∀ n ∈ nums, n < l.length) :
    (sortNatDesc nums).foldl (fun ls n => ls.eraseIdx n) l = keepIdx nums 0 l := by
  have hperm := sortNatDesc_perm nums
  rw [foldl_eraseIdx_sorted (sortNatDesc nums) l (sortNatDesc_pairwise nums)
    (hperm.nodup_iff.mpr hnodup) (fun n hn => hvalid n (hperm.mem_iff.mp hn))]
  exact keepIdx_congr (sortNatDesc nums) nums (fun i => hperm.mem_iff) l 0

theorem dedup_map_isEmpty {α β : Type} [DecidableEq β] (f : α → β) (l : List α) :
    ((l.map f).dedup).isEmpty = l.isEmpty := by
  cases l with
  | nil => rfl
  | cons a rest =>
    have hne : ((a :: rest).map f).dedup ≠ [] := by
      intro h
      have hmem : f a ∈ ((a :: rest).map f).dedup := List.mem_dedup.mpr (by simp)
      rw [h] at hmem
      cases hmem
    cases hc : ((a :: rest).map f).dedup with
    | nil => exact absurd hc hne
    | cons b bs => rfl

/-- C3: provided each scraped `from`-import line number indexes a line of the
source (as the parser guarantees), `convert` behaves exactly as the claim
describes: `None` with no from-import line of `modname`, otherwise removal
of every such line, conditional insertion of the import line at the smallest
removed line number, and the decreasing-order replacement pass — which
yields `None` when no new undefined name appeared. -/
theorem c3_convert (scrape : String → List (Nat × String)) (lint : String → List Diag)
    (source modname : String)
    (hvalid : ∀ p ∈ scrape source, strStarts p.2 ("from " ++ modname) = true →
        p.1 < (splitLines source).length) :
    convert scrape lint source modname = convertSpec scrape lint source modname := by
  simp only [convert, convertSpec]
  have hcond : ((matchingOf (scrape source) modname).map
      (fun p => lastTok p.2)).dedup.isEmpty = (matchingOf (scrape source) modname).isEmpty :=
    dedup_map_isEmpty _ _
  rw [hcond]
  by_cases hm : (matchingOf (scrape source) modname).isEmpty = true
  · rw [if_pos hm, if_pos hm]
  · rw [if_neg hm, if_neg hm]
    have hlines : (sortNatDesc ((matchingOf (scrape source) modname).map Prod.fst).dedup).foldl
        (fun ls n => ls.eraseIdx n) (splitLines source)
        = keepIdx ((matchingOf (scrape source) modname).map Prod.fst).dedup 0 (splitLines source) := by
      apply eraseIdx_desc_eq_keepIdx
      · exact List.nodup_dedup _
      · intro n hn
        rcases List.mem_map.mp (List.mem_dedup.mp hn) with ⟨p, hp, hfst⟩
        have hpm := List.mem_filter.mp hp
        rw [← hfst]
        exact hvalid p hpm.1 (by simpa using hpm.2)
    rw [hlines]

/-- Concrete oracles used to check C3: a two-line script with one
`from`-import of `mylib`; removing it (and inserting `import mylib`) makes
`foo` undefined at line 2, column 0. -/
def c3source : String := "from mylib import foo\nfoo()"

def c3scrape : String → List (Nat × String) :=
  fun s => if s = c3source then [(0, "from mylib import foo")] else []

def c3lint : String → List Diag :=
  fun s => if s = "import mylib\nfoo()" then [⟨"E0602", "undef foo", 2, 0⟩] else []

theorem c3_convert_check :
    (∀ p ∈ c3scrape c3source, strStarts p.2 ("from " ++ "mylib") = true →
        p.1 < (splitLines c3source).length)
    ∧ convert c3scrape c3lint c3source "mylib" = convertSpec c3scrape c3lint c3source "mylib" :=
  ⟨by decide, c3_convert c3scrape c3lint c3source "mylib" (by decide)⟩

/-! ## C4: `star_wrangler.process`

The live Python environment is modelled by a `World`: the loaded modules (by
name), `inspect.getsource` on functions, and the pylint oracle
(`star_wrangler.undefined`) giving the undefined words of a code block.  The
`ismethod` branch is not modelled: the processed bindings are plain functions
or module objects, which is what claim C4 is about.  The recursion is
instrumented: besides the final state, each call reports its early-return
flags, the source recording it performed, and the children it recursed into
or skipped under the depth guard. -/

/-- A module-level binding `process` may encounter: a function, or the module
object itself.  `fid` models Python object identity (the `subfunc != func`
test). -/
structure PFunc where
  fid : Nat
  name : String
  modname : String
  isModule : Bool
deriving DecidableEq, Repr

/-- A loaded module: file path, whether it is a builtin, its `vars()` dict,
its source lines, and its import lines (`load_imports`, the parse being
external). -/
structure PModule where
  file : String
  isBuiltin : Bool
  modvars : List (String × PFunc)
  msource : List String
  imports : List String
deriving DecidableEq, Repr

/-- The live environment. -/
structure World where
  modules : List (String × PModule)
  fsource : PFunc → List String
  undef : List String → List String

/-- The mutable state threaded by `process`: the `functions` ordered dict and
the module-level `MYIMPORTS` dict. -/
structure PState where
  functions : List (String × List String)
  myimports : List (String × String)
deriving DecidableEq, Repr

/-- Python dict assignment `d[k] = v`: update in place, else append. -/
def setk {α : Type} (key : String) (v : α) : List (String × α) → List (String × α)
  | [] => [(key, v)]
  | p :: rest => if p.1 = key then (key, v) :: rest else p :: setk key v rest

/-- `functions[name] = [line]` followed by `move_to_end(name, last=False)`:
the entry ends up at the front. -/
def setFront (key : String) (v : List String) (l : List (String × List String)) :
    List (String × List String) :=
  (key, v) :: l.filter (fun p => decide (p.1 ≠ key))

/-- `alias_finder`: scan the module source for lines starting with the alias
name and move each such line (the last one surviving) to the front of
`functions`. -/
def alias_finder (msource : List String) (nm : String)
    (fns : List (String × List String)) : List (String × List String) :=
  msource.foldl (fun fs line => if strStarts line nm = true then setFront nm [line] fs else fs) fns

/-- Instrumented result of one `process` call. -/
structure POut where
  st : PState
  externalSkip : Bool
  moduleSkip : Bool
  recorded : Option (String × List String)
  children : List PFunc
  skippedDepth : List PFunc
deriving DecidableEq, Repr

/-- The alias bookkeeping done for one word (`if word != subfunc.__name__:
alias_finder(word, inspect.getmodule(subfunc))`). -/
def aliasState (w : World) (word : String) (sub : PFunc) (s : PState) : PState :=
  if word ≠ sub.name then
    ⟨alias_finder (((alookup w.modules sub.modname).map PModule.msource).getD [])
      word s.functions, s.myimports⟩
  else s

/-- One iteration of the child loop of `process`, for one undefined word:
look the word up in the module vars dict, do the alias bookkeeping, and
either recurse (through `rec`), record a depth-guard skip, or skip a self
reference. -/
def childStep (w : World) (mod : PModule) (func : PFunc) (level maxLevel : Nat)
    (rec : PFunc → PState → PState) (acc : PState × List PFunc × List PFunc)
    (word : String) : PState × List PFunc × List PFunc :=
  match alookup mod.modvars word with
  | none => acc
  | some subfunc =>
    let s2 := aliasState w word subfunc acc.1
    if subfunc ≠ func then
      if maxLevel ≠ 0 ∧ maxLevel < level + 1 then (s2, acc.2.1, acc.2.2 ++ [subfunc])
      else (rec subfunc s2, acc.2.1 ++ [subfunc], acc.2.2)
    else (s2, acc.2.1, acc.2.2)

/-- One iteration of the `MYIMPORTS` loop: record the first import line of the
module whose whitespace-split contains the word. -/
def importStep (imports : List String) (s : PState) (word : String) : PState :=
  match imports.find? (fun line => (pysplit line).contains word) with
  | some line => ⟨s.functions, setk word line s.myimports⟩
  | none => s

/-- The code used for `func`: the entry already recorded under its name, else
its `inspect.getsource`. -/
def codeOf (w : World) (st : PState) (func : PFunc) : List String :=
  match alookup st.functions func.name with
  | some c => c
  | none => w.fsource func

/-- The recording performed (`functions[name] = code` when absent). -/
def recordedOf (w : World) (st : PState) (func : PFunc) : Option (String × List String) :=
  match alookup st.functions func.name with
  | some _ => none
  | none => some (func.name, w.fsource func)

/-- The state after the recording step. -/
def st1Of (w : World) (st : PState) (func : PFunc) : PState :=
  match alookup st.functions func.name with
  | some _ => st
  | none => ⟨setk func.name (w.fsource func) st.functions, st.myimports⟩

/-- The body of `process` below the module lookup, parametric in the recursive
call `rec`. -/
def processCore (w : World) (rec : PFunc → PState → PState) (func : PFunc)
    (mod : PModule) (level maxLevel : Nat) (st : PState) : POut :=
  if mod.isBuiltin = true ∨ strStarts mod.file "/usr/lib" = true then
    ⟨st, true, false, none, [], []⟩
  else if func.isModule = true then
    ⟨st, false, true, none, [], []⟩
  else
    let words := w.undef (codeOf w st func)
    let trip := words.foldl (childStep w mod func level maxLevel rec) (st1Of w st func, [], [])
    ⟨⟨(words.foldl (importStep mod.imports) trip.1).functions,
        (words.foldl (importStep mod.imports) trip.1).myimports⟩,
      false, false, recordedOf w st func, trip.2.1, trip.2.2⟩

/-- `star_wrangler.process func functions caller level max_level`: fetch the
defining module; return at once for builtin or `/usr/lib` modules or when the
binding is the module itself; otherwise record the source (when absent), get
the undefined words from the oracle, run the child loop (each recursive call
passing the default `max_level = 9`, as the source does), and finally record
the words found in the import lines of the module into `MYIMPORTS`.  `fuel`
bounds the recursion; an exhausted call is a no-op. -/
def process (w : World) : Nat → PFunc → Nat → Nat → PState → POut
  | 0, _, _, _, st => ⟨st, false, false, none, [], []⟩
  | fuel + 1, func, level, maxLevel, st =>
    match alookup w.modules func.modname with
    | none => ⟨st, false, false, none, [], []⟩
    | some mod =>
      processCore w (fun sub s => (process w fuel sub (level + 1) 9 s).st)
        func mod level maxLevel st

/-- Classification of one undefined word: the binding recursed into, if any
(present in the module vars dict, not `func` itself, depth guard passing). -/
def childClass (mod : PModule) (func : PFunc) (level maxLevel : Nat) (word : String) :
    Option PFunc :=
  match alookup mod.modvars word with
  | some sub =>
    if sub ≠ func ∧ ¬ (maxLevel ≠ 0 ∧ maxLevel < level + 1) then some sub else none
  | none => none

/-- Classification of one undefined word: the binding skipped by the depth
guard, if any. -/
def skipClass (mod : PModule) (func : PFunc) (level maxLevel : Nat) (word : String) :
    Option PFunc :=
  match alookup mod.modvars word with
  | some sub =>
    if sub ≠ func ∧ (maxLevel ≠ 0 ∧ maxLevel < level + 1) then some sub else none
  | none => none

/-- The children C4 promises `process` recurses into. -/
def claimChildren (mod : PModule) (func : PFunc) (words : List String)
    (level maxLevel : Nat) : List PFunc :=
  words.filterMap (childClass mod func level maxLevel)

/-- The children skipped by the depth guard. -/
def claimSkipped (mod : PModule) (func : PFunc) (words : List String)
    (level maxLevel : Nat) : List PFunc :=
  words.filterMap (skipClass mod func level maxLevel)

theorem childStep_parts (w : World) (mod : PModule) (func : PFunc) (level maxLevel : Nat)
    (rec : PFunc → PState → PState) :
    ∀ (words : List String) (acc : PState × List PFunc × List PFunc),
      ((words.foldl (childStep w mod func level maxLevel rec) acc).2.1
          = acc.2.1 ++ claimChildren mod func words level maxLevel)
      ∧ ((words.foldl (childStep w mod func level maxLevel rec) acc).2.2
          = acc.2.2 ++ claimSkipped mod func words level maxLevel) := by
  intro words
  induction words with
  | nil =>
    intro acc
    constructor
    · rw [List.foldl_nil, show claimChildren mod func [] level maxLevel = [] from rfl,
        List.append_nil]
    · rw [List.foldl_nil, show claimSkipped mod func [] level maxLevel = [] from rfl,
        List.append_nil]
  | cons word rest ih =>
    intro acc
    rw [List.foldl_cons]
    have hccons : claimChildren mod func (word :: rest) level maxLevel
        = (childClass mod func level maxLevel word).toList
          ++ claimChildren mod func rest level maxLevel := by
      unfold claimChildren
      rw [List.filterMap_cons]
      cases childClass mod func level maxLevel word with
      | none => rfl
      | some b => rfl
    have hscons : claimSkipped mod func (word :: rest) level maxLevel
        = (skipClass mod func level maxLevel word).toList
          ++ claimSkipped mod func rest level maxLevel := by
      unfold claimSkipped
      rw [List.filterMap_cons]
      cases skipClass mod func level maxLevel word with
      | none => rfl
      | some b => rfl
    cases hlk : alookup mod.modvars word with
    | none =>
      have hstep : childStep w mod func level maxLevel rec acc word = acc := by
        unfold childStep
        rw [hlk]
      have hcc : childClass mod func level maxLevel word = none := by
        unfold childClass
        rw [hlk]
      have hsc : skipClass mod func level maxLevel word = none := by
        unfold skipClass
        rw [hlk]
      rw [hstep, hccons, hscons, hcc, hsc]
      have hrest := ih acc
      exact ⟨by rw [hrest.1]; rfl, by rw [hrest.2]; rfl⟩
    | some sub =>
      by_cases hseq : sub = func
      · have hstep : childStep w mod func level maxLevel rec acc word
            = (aliasState w word sub acc.1, acc.2.1, acc.2.2) := by
          unfold childStep
          rw [hlk]
          dsimp only
          rw [if_neg (fun hne => hne hseq)]
        have hcc : childClass mod func level maxLevel word = none := by
          unfold childClass
          rw [hlk]
          dsimp only
          rw [if_neg (fun hand => hand.1 hseq)]
        have hsc : skipClass mod func level maxLevel word = none := by
          unfold skipClass
          rw [hlk]
          dsimp only
          rw [if_neg (fun hand => hand.1 hseq)]
        rw [hstep, hccons, hscons, hcc, hsc]
        have hrest := ih (aliasState w word sub acc.1, acc.2.1, acc.2.2)
        exact ⟨by rw [hrest.1]; rfl, by rw [hrest.2]; rfl⟩
      · by_cases hguard : maxLevel ≠ 0 ∧ maxLevel < level + 1
        · have hstep : childStep w mod func level maxLevel rec acc word
              = (aliasState w word sub acc.1, acc.2.1, acc.2.2 ++ [sub]) := by
            unfold childStep
            rw [hlk]
            dsimp only
            rw [if_pos hseq, if_pos hguard]
          have hcc : childClass mod func level maxLevel word = none := by
            unfold childClass
            rw [hlk]
            dsimp only
            rw [if_neg (fun hand => hand.2 hguard)]
          have hsc : skipClass mod func level maxLevel word = some sub := by
            unfold skipClass
            rw [hlk]
            dsimp only
            rw [if_pos ⟨hseq, hguard⟩]
          rw [hstep, hccons, hscons, hcc, hsc]
          have hrest := ih (aliasState w word sub acc.1, acc.2.1, acc.2.2 ++ [sub])
          constructor
          · rw [hrest.1]
            simp
          · rw [hrest.2]
            show (acc.2.2 ++ [sub]) ++ claimSkipped mod func rest level maxLevel
                = acc.2.2 ++ ([sub] ++ claimSkipped mod func rest level maxLevel)
            rw [List.append_assoc]
        · have hstep : childStep w mod func level maxLevel rec acc word
              = (rec sub (aliasState w word sub acc.1), acc.2.1 ++ [sub], acc.2.2) := by
            unfold childStep
            rw [hlk]
            dsimp only
            rw [if_pos hseq, if_neg hguard]
          have hcc : childClass mod func level maxLevel word = some sub := by
            unfold childClass
            rw [hlk]
            dsimp only
            rw [if_pos ⟨hseq, hguard⟩]
          have hsc : skipClass mod func level maxLevel word = none := by
            unfold skipClass
            rw [hlk]
            dsimp only
            rw [if_neg (fun hand => hguard hand.2)]
          rw [hstep, hccons, hscons, hcc, hsc]
          have hrest := ih (rec sub (aliasState w word sub acc.1), acc.2.1 ++ [sub], acc.2.2)
          constructor
          · rw [hrest.1]
            show (acc.2.1 ++ [sub]) ++ claimChildren mod func rest level maxLevel
                = acc.2.1 ++ ([sub] ++ claimChildren mod func rest level maxLevel)
            rw [List.append_assoc]
          · rw [hrest.2]
            simp

theorem alookup_setk_self {α : Type} (key : String) (v : α) (l : List (String × α)) :
    alookup (setk key v l) key = some v := by
  induction l with
  | nil =>
    show (if key = key then some v else alookup [] key) = some v
    rw [if_pos rfl]
  | cons p rest ih =>
    unfold setk
    by_cases hp : p.1 = key
    · rw [if_pos hp]
      show (if key = key then some v else alookup rest key) = some v
      rw [if_pos rfl]
    · rw [if_neg hp]
      show (if p.1 = key then some p.2 else alookup (setk key v rest) key) = some v
      rw [if_neg hp]
      exact ih

theorem alookup_setk_other {α : Type} (key k : String) (v : α) (l : List (String × α))
    (h : k ≠ key) : alookup (setk key v l) k = alookup l k := by
  induction l with
  | nil =>
    show (if key = k then some v else alookup [] k) = alookup [] k
    rw [if_neg (fun he => h he.symm)]
  | cons p rest ih =>
    unfold setk
    by_cases hp : p.1 = key
    · rw [if_pos hp]
      show (if key = k then some v else alookup rest k) = alookup (p :: rest) k
      rw [if_neg (fun he => h he.symm)]
      show alookup rest k = if p.1 = k then some p.2 else alookup rest k
      rw [if_neg (fun he => h (hp ▸ he).symm)]
    · rw [if_neg hp]
      show (if p.1 = k then some p.2 else alookup (setk key v rest) k)
          = if p.1 = k then some p.2 else alookup rest k
      by_cases hpk : p.1 = k
      · rw [if_pos hpk, if_pos hpk]
      · rw [if_neg hpk, if_neg hpk]
        exact ih

theorem alookup_setk_isSome {α : Type} (key k : String) (v : α) (l : List (String × α))
    (h : (alookup l k).isSome = true) : (alookup (setk key v l) k).isSome = true := by
  by_cases hk : k = key
  · rw [hk, alookup_setk_self]
    rfl
  · rw [alookup_setk_other key k v l hk]
    exact h

theorem alookup_filter_ne {α : Type} (key k : String) (l : List (String × α)) (h : k ≠ key) :
    alookup (l.filter (fun p => decide (p.1 ≠ key))) k = alookup l k := by
  induction l with
  | nil => rfl
  | cons p rest ih =>
    rw [List.filter_cons]
    by_cases hp : p.1 = key
    · rw [if_neg (by simp [hp])]
      rw [show alookup (p :: rest) k = if p.1 = k then some p.2 else alookup rest k from rfl]
      rw [if_neg (fun he => h (hp ▸ he).symm)]
      exact ih
    · rw [if_pos (by simp [hp])]
      show (if p.1 = k then some p.2 else alookup (rest.filter (fun p => decide (p.1 ≠ key))) k)
          = if p.1 = k then some p.2 else alookup rest k
      by_cases hpk : p.1 = k
      · rw [if_pos hpk, if_pos hpk]
      · rw [if_neg hpk, if_neg hpk]
        exact ih

theorem alookup_setFront_isSome (key k : String) (v : List String)
    (l : List (String × List String)) (h : (alookup l k).isSome = true) :
    (alookup (setFront key v l) k).isSome = true := by
  unfold setFront
  by_cases hk : k = key
  · rw [hk]
    rw [show alookup ((key, v) :: l.filter (fun p => decide (p.1 ≠ key))) key
        = if key = key then some v else alookup (l.filter (fun p => decide (p.1 ≠ key))) key
        from rfl]
    rw [if_pos rfl]
    rfl
  · rw [show alookup ((key, v) :: l.filter (fun p => decide (p.1 ≠ key))) k
        = if key = k then some v else alookup (l.filter (fun p => decide (p.1 ≠ key))) k
        from rfl]
    rw [if_neg (fun he => hk he.symm), alookup_filter_ne key k l hk]
    exact h

theorem alias_finder_isSome (msource : List String) (nm k : String) :
    ∀ fns, (alookup fns k).isSome = true →
      (alookup (alias_finder msource nm fns) k).isSome = true := by
  induction msource with
  | nil => intro fns h; exact h
  | cons line rest ih =>
    intro fns h
    rw [show alias_finder (line :: rest) nm fns
        = alias_finder rest nm
            (if strStarts line nm = true then setFront nm [line] fns else fns) from rfl]
    by_cases hs : strStarts line nm = true
    · rw [if_pos hs]
      exact ih _ (alookup_setFront_isSome nm k [line] fns h)
    · rw [if_neg hs]
      exact ih _ h

theorem aliasState_isSome (w : World) (word : String) (sub : PFunc) (s : PState) (k : String)
    (h : (alookup s.functions k).isSome = true) :
    (alookup (aliasState w word sub s).functions k).isSome = true := by
  unfold aliasState
  by_cases hw : word ≠ sub.name
  · rw [if_pos hw]
    exact alias_finder_isSome _ word k s.functions h
  · rw [if_neg hw]
    exact h

theorem foldl_childStep_isSome (w : World) (mod : PModule) (func : PFunc)
    (level maxLevel : Nat) (rec : PFunc → PState → PState)
    (hrec : ∀ sub s k, (alookup s.functions k).isSome = true →
        (alookup (rec sub s).functions k).isSome = true) :
    ∀ (words : List String) (acc : PState × List PFunc × List PFunc) (k : String),
      (alookup acc.1.functions k).isSome = true →
      (alookup ((words.foldl (childStep w mod func level maxLevel rec) acc)).1.functions k).isSome
        = true := by
  intro words
  induction words with
  | nil => intro acc k h; exact h
  | cons word rest ih =>
    intro acc k h
    rw [List.foldl_cons]
    apply ih
    show (alookup (childStep w mod func level maxLevel rec acc word).1.functions k).isSome = true
    unfold childStep
    cases hlk : alookup mod.modvars word with
    | none => exact h
    | some sub =>
      dsimp only
      by_cases hseq : sub ≠ func
      · rw [if_pos hseq]
        by_cases hguard : maxLevel ≠ 0 ∧ maxLevel < level + 1
        · rw [if_pos hguard]
          exact aliasState_isSome w word sub acc.1 k h
        · rw [if_neg hguard]
          exact hrec sub _ k (aliasState_isSome w word sub acc.1 k h)
      · rw [if_neg hseq]
        exact aliasState_isSome w word sub acc.1 k h

theorem foldl_importStep_functions (imports : List String) :
    ∀ (words : List String) (st : PState),
      ((words.foldl (importStep imports) st)).functions = st.functions := by
  intro words
  induction words with
  | nil => intro st; rfl
  | cons word rest ih =>
    intro st
    rw [List.foldl_cons, ih]
    unfold importStep
    cases imports.find? (fun line => (pysplit line).contains word) with
    | none => rfl
    | some line => rfl

theorem foldl_importStep_preserve (imports : List String) :
    ∀ (rest : List String) (word line : String), ¬ word ∈ rest →
      ∀ st : PState, alookup st.myimports word = some line →
        alookup ((rest.foldl (importStep imports) st)).myimports word = some line := by
  intro rest
  induction rest with
  | nil => intro word line _ st h; exact h
  | cons v vs ih =>
    intro word line hnot st h
    rw [List.foldl_cons]
    apply ih word line (fun hv => hnot (List.mem_cons_of_mem v hv))
    unfold importStep
    cases hf : imports.find? (fun l => (pysplit l).contains v) with
    | none => exact h
    | some l2 =>
      dsimp only
      rw [alookup_setk_other v word l2 st.myimports
        (fun he => hnot (he ▸ List.mem_cons_self v vs))]
      exact h

theorem foldl_importStep_lookup (imports : List String) (word line : String)
    (hfind : imports.find? (fun l => (pysplit l).contains word) = some line) :
    ∀ (words : List String) (st : PState), word ∈ words →
      alookup ((words.foldl (importStep imports) st)).myimports word = some line := by
  intro words
  induction words with
  | nil => intro st h; cases h
  | cons v rest ih =>
    intro st hmem
    rw [List.foldl_cons]
    by_cases hvr : word ∈ rest
    · exact ih _ hvr
    · have hv : word = v := by
        rcases List.mem_cons.mp hmem with h | h
        · exact h
        · exact absurd h hvr
      apply foldl_importStep_preserve imports rest word line hvr
      rw [← hv]
      unfold importStep
      rw [hfind]
      dsimp only
      exact alookup_setk_self word line st.myimports

theorem st1Of_name_isSome (w : World) (st : PState) (func : PFunc) :
    (alookup (st1Of w st func).functions func.name).isSome = true := by
  unfold st1Of
  cases h : alookup st.functions func.name with
  | some c =>
    dsimp only
    rw [h]
    rfl
  | none =>
    dsimp only
    rw [alookup_setk_self]
    rfl

theorem processCore_spec (w : World) (rec : PFunc → PState → PState) (func : PFunc)
    (mod : PModule) (level maxLevel : Nat) (st : PState)
    (hrec : ∀ sub s k, (alookup s.functions k).isSome = true →
        (alookup (rec sub s).functions k).isSome = true)
    (hext : ¬ (mod.isBuiltin = true ∨ strStarts mod.file "/usr/lib" = true))
    (hnm : func.isModule = false) :
    (processCore w rec func mod level maxLevel st).externalSkip = false
    ∧ (processCore w rec func mod level maxLevel st).recorded = recordedOf w st func
    ∧ (alookup (processCore w rec func mod level maxLevel st).st.functions func.name).isSome
        = true
    ∧ (processCore w rec func mod level maxLevel st).children
        = claimChildren mod func (w.undef (codeOf w st func)) level maxLevel
    ∧ (processCore w rec func mod level maxLevel st).skippedDepth
        = claimSkipped mod func (w.undef (codeOf w st func)) level maxLevel
    ∧ (∀ word ∈ w.undef (codeOf w st func), ∀ line,
        mod.imports.find? (fun l => (pysplit l).contains word) = some line →
          alookup (processCore w rec func mod level maxLevel st).st.myimports word
            = some line) := by
  have hnm2 : ¬ (func.isModule = true) := by
    rw [hnm]
    exact Bool.false_ne_true
  have hbody : processCore w rec func mod level maxLevel st
      = ⟨⟨((w.undef (codeOf w st func)).foldl (importStep mod.imports)
            ((w.undef (codeOf w st func)).foldl
              (childStep w mod func level maxLevel rec) (st1Of w st func, [], [])).1).functions,
          ((w.undef (codeOf w st func)).foldl (importStep mod.imports)
            ((w.undef (codeOf w st func)).foldl
              (childStep w mod func level maxLevel rec) (st1Of w st func, [], [])).1).myimports⟩,
        false, false, recordedOf w st func,
        ((w.undef (codeOf w st func)).foldl
          (childStep w mod func level maxLevel rec) (st1Of w st func, [], [])).2.1,
        ((w.undef (codeOf w st func)).foldl
          (childStep w mod func level maxLevel rec) (st1Of w st func, [], [])).2.2⟩ := by
    unfold processCore
    rw [if_neg hext, if_neg hnm2]
  rw [hbody]
  refine ⟨rfl, rfl, ?_, ?_, ?_, ?_⟩
  · show (alookup ((w.undef (codeOf w st func)).foldl (importStep mod.imports) _).functions
        func.name).isSome = true
    rw [foldl_importStep_functions]
    exact foldl_childStep_isSome w mod func level maxLevel rec hrec
      (w.undef (codeOf w st func)) (st1Of w st func, [], []) func.name
      (st1Of_name_isSome w st func)
  · exact (childStep_parts w mod func level maxLevel rec
      (w.undef (codeOf w st func)) (st1Of w st func, [], [])).1
  · exact (childStep_parts w mod func level maxLevel rec
      (w.undef (codeOf w st func)) (st1Of w st func, [], [])).2
  · intro word hword line hfind
    exact foldl_importStep_lookup mod.imports word line hfind
      (w.undef (codeOf w st func)) _ hword

theorem processCore_functions_isSome (w : World) (rec : PFunc → PState → PState)
    (func : PFunc) (mod : PModule) (level maxLevel : Nat) (st : PState)
    (hrec : ∀ sub s k, (alookup s.functions k).isSome = true →
        (alookup (rec sub s).functions k).isSome = true)
    (k : String) (h : (alookup st.functions k).isSome = true) :
    (alookup (processCore w rec func mod level maxLevel st).st.functions k).isSome = true := by
  unfold processCore
  by_cases hext : mod.isBuiltin = true ∨ strStarts mod.file "/usr/lib" = true
  · rw [if_pos hext]
    exact h
  · rw [if_neg hext]
    by_cases hism : func.isModule = true
    · rw [if_pos hism]
      exact h
    · rw [if_neg hism]
      dsimp only
      rw [foldl_importStep_functions]
      apply foldl_childStep_isSome w mod func level maxLevel rec hrec
      show (alookup (st1Of w st func).functions k).isSome = true
      unfold st1Of
      cases hl : alookup st.functions func.name with
      | some c =>
        dsimp only
        exact h
      | none =>
        dsimp only
        exact alookup_setk_isSome func.name k (w.fsource func) st.functions h

theorem process_functions_isSome (w : World) :
    ∀ (fuel : Nat) (func : PFunc) (level maxLevel : Nat) (st : PState) (k : String),
      (alookup st.functions k).isSome = true →
      (alookup (process w fuel func level maxLevel st).st.functions k).isSome = true := by
  intro fuel
  induction fuel with
  | zero =>
    intro func level maxLevel st k h
    exact h
  | succ fuel ih =>
    intro func level maxLevel st k h
    show (alookup (process w (fuel + 1) func level maxLevel st).st.functions k).isSome = true
    rw [show process w (fuel + 1) func level maxLevel st
        = (match alookup w.modules func.modname with
           | none => ⟨st, false, false, none, [], []⟩
           | some mod =>
             processCore w (fun sub s => (process w fuel sub (level + 1) 9 s).st)
               func mod level maxLevel st) from rfl]
    cases hm : alookup w.modules func.modname with
    | none => exact h
    | some mod =>
      dsimp only
      exact processCore_functions_isSome w _ func mod level maxLevel st
        (fun sub s kk hh => ih sub (level + 1) 9 s kk hh) k h

/-- C4: with the defining module found, `process` (given one unit of fuel plus
whatever the recursion needs): returns immediately with the state untouched
when the module is a builtin or its file lies under `/usr/lib` (so such
functions are never inlined); otherwise — for a function binding — it records
the source of the function under its name exactly when the name is absent,
its name is present in `functions` afterwards, it computes the undefined
words through the lint oracle and recurses into exactly the module bindings
named by those words other than `func` itself, skipping a child whenever
`max_level` is nonzero and `level + 1` exceeds it, and each undefined word
occurring among the module import lines ends up in `MYIMPORTS` mapped to the
first such line. -/
theorem c4_process (w : World) (fuel : Nat) (func : PFunc) (level maxLevel : Nat)
    (st : PState) (mod : PModule)
    (hmod : alookup w.modules func.modname = some mod) :
    ((mod.isBuiltin = true ∨ strStarts mod.file "/usr/lib" = true) →
      process w (fuel + 1) func level maxLevel st = ⟨st, true, false, none, [], []⟩)
    ∧ (¬ (mod.isBuiltin = true ∨ strStarts mod.file "/usr/lib" = true) →
       func.isModule = false →
       (process w (fuel + 1) func level maxLevel st).externalSkip = false
       ∧ (process w (fuel + 1) func level maxLevel st).recorded = recordedOf w st func
       ∧ (alookup (process w (fuel + 1) func level maxLevel st).st.functions
            func.name).isSome = true
       ∧ (process w (fuel + 1) func level maxLevel st).children
           = claimChildren mod func (w.undef (codeOf w st func)) level maxLevel
       ∧ (process w (fuel + 1) func level maxLevel st).skippedDepth
           = claimSkipped mod func (w.undef (codeOf w st func)) level maxLevel
       ∧ (∀ word ∈ w.undef (codeOf w st func), ∀ line,
            mod.imports.find? (fun l => (pysplit l).contains word) = some line →
              alookup (process w (fuel + 1) func level maxLevel st).st.myimports word
                = some line)) := by
  have heq : process w (fuel + 1) func level maxLevel st
      = processCore w (fun sub s => (process w fuel sub (level + 1) 9 s).st)
          func mod level maxLevel st := by
    rw [show process w (fuel + 1) func level maxLevel st
        = (match alookup w.modules func.modname with
           | none => ⟨st, false, false, none, [], []⟩
           | some mod =>
             processCore w (fun sub s => (process w fuel sub (level + 1) 9 s).st)
               func mod level maxLevel st) from rfl]
    rw [hmod]
  constructor
  · intro hext
    rw [heq]
    unfold processCore
    rw [if_pos hext]
  · intro hext hnm
    rw [heq]
    exact processCore_spec w _ func mod level maxLevel st
      (fun sub s kk hh => process_functions_isSome w fuel sub (level + 1) 9 s kk hh)
      hext hnm

/-- Concrete world used to check C4: `main_func` in module `mylib` references
`helper` (a module binding, recursed into) and `os` (found among the
module import lines, recorded in MYIMPORTS). -/
def c4func : PFunc := ⟨0, "main_func", "mylib", false⟩

def c4gfunc : PFunc := ⟨1, "helper", "mylib", false⟩

def c4mod : PModule :=
  ⟨"/home/u/mylib.py", false,
    [("main_func", c4func), ("helper", c4gfunc)],
    ["import os", "def main_func():", "def helper():"],
    ["import os"]⟩

def c4world : World :=
  ⟨[("mylib", c4mod)],
    fun f => if f.fid = 0 then ["def main_func():", "    helper()"] else ["def helper():", "    pass"],
    fun code => if code = ["def main_func():", "    helper()"] then ["helper", "os"] else []⟩

theorem c4_process_check :
    alookup c4world.modules c4func.modname = some c4mod
    ∧ (¬ (c4mod.isBuiltin = true ∨ strStarts c4mod.file "/usr/lib" = true)
    ∧ c4func.isModule = false)
    ∧ ((process c4world 3 c4func 0 9 ⟨[], []⟩).externalSkip = false
       ∧ (process c4world 3 c4func 0 9 ⟨[], []⟩).recorded = recordedOf c4world ⟨[], []⟩ c4func
       ∧ (alookup (process c4world 3 c4func 0 9 ⟨[], []⟩).st.functions
            c4func.name).isSome = true
       ∧ (process c4world 3 c4func 0 9 ⟨[], []⟩).children
           = claimChildren c4mod c4func (c4world.undef (codeOf c4world ⟨[], []⟩ c4func)) 0 9
       ∧ (process c4world 3 c4func 0 9 ⟨[], []⟩).skippedDepth
           = claimSkipped c4mod c4func (c4world.undef (codeOf c4world ⟨[], []⟩ c4func)) 0 9
       ∧ (∀ word ∈ c4world.undef (codeOf c4world ⟨[], []⟩ c4func), ∀ line,
            c4mod.imports.find? (fun l => (pysplit l).contains word) = some line →
              alookup (process c4world 3 c4func 0 9 ⟨[], []⟩).st.myimports word
                = some line)) := by
  refine ⟨rfl, ⟨by decide, rfl⟩, ?_⟩
  have h2 := (c4_process c4world 2 c4func 0 9 ⟨[], []⟩ c4mod rfl).2 (by decide) rfl
  exact h2

end StarWrangler
